import Mathlib

/-
Verification of the release-notes formatter (format-release-notes.py).

The script is embedded shallowly: strings are `List Char`, the two regular
expressions (`PR_RE`, `CHANGELOG_RE`) are embedded as specialised
backtracking matchers that follow Python `re` semantics (leftmost match,
greedy / lazy preference order, `$` matching at end or before a final
newline), `str.strip` / `str.splitlines` are embedded directly, and the two
renderers plus `main` are embedded as pure functions.

Character-class model: Python's `\s` (and `str.isspace`) is modelled by the
explicit Unicode white-space set `isSpace` below; `\w` is modelled on its
ASCII part (letters, digits, underscore), which is exact for the ASCII
usernames the specification quantifies over.
-/

namespace Brewy

/-- Model of Python `str.isspace` / regex `\s` (the Unicode white-space set). -/
def isSpace (c : Char) : Bool :=
  c == ' ' || c == '\t' || c == '\n' || c == '\x0b' || c == '\x0c' || c == '\r' ||
  c == '\x1c' || c == '\x1d' || c == '\x1e' || c == '\x1f' || c == '\x85' || c == '\xa0' ||
  c == '\u1680' || c == '\u2000' || c == '\u2001' || c == '\u2002' || c == '\u2003' ||
  c == '\u2004' || c == '\u2005' || c == '\u2006' || c == '\u2007' || c == '\u2008' ||
  c == '\u2009' || c == '\u200a' || c == '\u2028' || c == '\u2029' || c == '\u202f' ||
  c == '\u205f' || c == '\u3000'

/-- The line boundaries recognised by Python `str.splitlines`. -/
def isLineBreak (c : Char) : Bool :=
  c == '\n' || c == '\r' || c == '\x0b' || c == '\x0c' || c == '\x1c' ||
  c == '\x1d' || c == '\x1e' || c == '\x85' || c == '\u2028' || c == '\u2029'

/-- Regex `[a-z]` (ASCII, exactly as in the pattern). -/
def isLowerAlpha (c : Char) : Bool := 'a' ≤ c && c ≤ 'z'

/-- Regex class `[\w-]` (ASCII model of `\w` plus the hyphen). -/
def isWordDash (c : Char) : Bool := c.isAlpha || c.isDigit || c == '_' || c == '-'

/-- Regex `.` without DOTALL: any character except a newline. -/
def isDotCh (c : Char) : Bool := c != '\n'

/-- Regex `\S`. -/
def isNonSpace (c : Char) : Bool := !isSpace c

/-- Python `str.strip()`: drop white space from both ends. -/
def stripChars (l : List Char) : List Char :=
  ((l.dropWhile isSpace).reverse.dropWhile isSpace).reverse

/-- Split at every line boundary (`\r\n` counting as one), always emitting the
segment after the last boundary, even when empty. -/
def splitAll : List Char → List (List Char)
  | [] => [[]]
  | '\r' :: '\n' :: rest => [] :: splitAll rest
  | c :: rest =>
    if isLineBreak c then [] :: splitAll rest
    else
      match splitAll rest with
      | [] => [[c]]
      | l :: ls => (c :: l) :: ls

/-- Python `str.splitlines()`: as `splitAll`, except that the empty string gives
no lines and a trailing line boundary produces no final empty line. -/
def splitlines (s : List Char) : List (List Char) :=
  match s with
  | [] => []
  | _ :: _ =>
    if (splitAll s).getLast? = some ([] : List Char) then (splitAll s).dropLast
    else splitAll s

/-! ### Boolean backtracking combinators

Used for the capture-free tail `(?:\s+by\s+@[\w-]+)?(?:\s+in\s+https?://\S+)?\s*$`
of `PR_RE`: only acceptance matters there, so a combinator returning `Bool`
with existential semantics is an exact model of the backtracking search. -/

/-- `p*` followed by the continuation `k`, in existential (acceptance) form. -/
def manyB (p : Char → Bool) : List Char → (List Char → Bool) → Bool
  | s, k =>
    k s ||
      match s with
      | c :: cs => p c && manyB p cs k
      | [] => false

/-- `p+` followed by the continuation `k`. -/
def plusB (p : Char → Bool) : List Char → (List Char → Bool) → Bool
  | c :: cs, k => p c && manyB p cs k
  | [], _ => false

/-- A literal, followed by the continuation `k`. -/
def litB : List Char → List Char → (List Char → Bool) → Bool
  | [], s, k => k s
  | _ :: _, [], _ => false
  | pc :: pr, c :: cs, k => pc == c && litB pr cs k

/-- `@[\w-]+` followed by `k`. -/
def atB (s : List Char) (k : List Char → Bool) : Bool :=
  match s with
  | '@' :: s4 => plusB isWordDash s4 k
  | _ => false

/-- `\s+by\s+@[\w-]+` followed by `k`. -/
def byB (s : List Char) (k : List Char → Bool) : Bool :=
  plusB isSpace s (fun s1 =>
    litB ['b', 'y'] s1 (fun s2 =>
      plusB isSpace s2 (fun s3 => atB s3 k)))

/-- Optional `s` of `https?`, followed by `k`. -/
def sOptB (s : List Char) (k : List Char → Bool) : Bool :=
  (match s with
   | 's' :: s2 => k s2
   | _ => false) || k s

/-- `https?://` followed by `k`. -/
def httpB (s : List Char) (k : List Char → Bool) : Bool :=
  litB ['h', 't', 't', 'p'] s (fun s1 =>
    sOptB s1 (fun s2 => litB [':', '/', '/'] s2 k))

/-- `\s+in\s+https?://\S+` followed by `k`. -/
def inB (s : List Char) (k : List Char → Bool) : Bool :=
  plusB isSpace s (fun s1 =>
    litB ['i', 'n'] s1 (fun s2 =>
      plusB isSpace s2 (fun s3 =>
        httpB s3 (fun s4 => plusB isNonSpace s4 k))))

/-- Python `$` in non-multiline mode: end of string, or just before a final newline. -/
def endOkB (s : List Char) : Bool := s == [] || s == ['\n']

/-- `\s*$`. -/
def endB (s : List Char) : Bool := manyB isSpace s endOkB

/-- The tail `(?:\s+by\s+@[\w-]+)?(?:\s+in\s+https?://\S+)?\s*$` of `PR_RE`:
does it accept `s`? -/
def tailAccept (s : List Char) : Bool :=
  (byB s (fun s1 => (inB s1 endB || endB s1)) || (inB s endB || endB s))

/-! ### Option combinators with capture

These model the front of `PR_RE`, where the preference order of the
backtracking search determines the `type` and `desc` captures: greedy
pieces try the longest split first, the lazy `.+?` tries the shortest
first, and an optional group tries presence before absence. -/

/-- Greedy `p*`: longest split first, backtracking to shorter ones. -/
def greedyManyO (p : Char → Bool) : List Char → (List Char → Option α) → Option α
  | [], k => k []
  | c :: cs, k =>
    if p c then (greedyManyO p cs k) <|> k (c :: cs)
    else k (c :: cs)

/-- Greedy `p+`. -/
def greedyPlusO (p : Char → Bool) : List Char → (List Char → Option α) → Option α
  | [], _ => none
  | c :: cs, k => if p c then greedyManyO p cs k else none

/-- Greedy `p*` with capture of the consumed characters. -/
def greedyManyCapO (p : Char → Bool) :
    List Char → (List Char → List Char → Option α) → Option α
  | [], k => k [] []
  | c :: cs, k =>
    if p c then
      (greedyManyCapO p cs (fun cap rest => k (c :: cap) rest)) <|> k [] (c :: cs)
    else k [] (c :: cs)

/-- Greedy `p+` with capture. -/
def greedyPlusCapO (p : Char → Bool) :
    List Char → (List Char → List Char → Option α) → Option α
  | [], _ => none
  | c :: cs, k =>
    if p c then greedyManyCapO p cs (fun cap rest => k (c :: cap) rest) else none

/-- Lazy `.+?`-style `p+` with capture: shortest split first. -/
def lazyPlusCapO (p : Char → Bool) :
    List Char → (List Char → List Char → Option α) → Option α
  | [], _ => none
  | c :: cs, k =>
    if p c then (k [c] cs) <|> lazyPlusCapO p cs (fun cap rest => k (c :: cap) rest)
    else none

/-- A literal, `Option`-valued. -/
def litO (pat s : List Char) (k : List Char → Option α) : Option α :=
  if pat.isPrefixOf s then k (s.drop pat.length) else none

/-- The closing `\)` of the scope group. -/
def closeParen (k : List Char → Option α) : List Char → Option α
  | ')' :: s3 => k s3
  | _ => none

/-- The scope group `\([^)]*\)` when present. -/
def scopeArm (k : List Char → Option α) : List Char → Option α
  | '(' :: s1 => greedyManyO (fun c => c != ')') s1 (closeParen k)
  | _ => none

/-- Optional scope `(?:\([^)]*\))?`, presence preferred. -/
def scopeOptO (s : List Char) (k : List Char → Option α) : Option α :=
  scopeArm k s <|> k s

/-- The `:` after the type (and optional scope). -/
def colonThen (k : List Char → Option α) : List Char → Option α
  | ':' :: s3 => k s3
  | _ => none

/-- The optional type group `(?:(?P<type>[a-z]+)(?:\([^)]*\))?:\s*)` (without
the outer `?`): captures the `[a-z]+` part. -/
def typeGroupO (s : List Char) (k : List Char → List Char → Option α) : Option α :=
  greedyPlusCapO isLowerAlpha s (fun ty s1 =>
    scopeOptO s1 (colonThen (fun s3 =>
      greedyManyO isSpace s3 (fun s4 => k ty s4))))

/-- The lazy description `(?P<desc>.+?)` followed by the acceptance-only tail. -/
def descSearch (ty : List Char) (s : List Char) : Option (List Char × List Char) :=
  lazyPlusCapO isDotCh s (fun cap rest =>
    if tailAccept rest then some (ty, cap) else none)

/-- `PR_RE.match` on a line: returns the `type` capture (`[]` when the optional
group is absent, mirroring `group("type") or ""`) and the raw `desc` capture. -/
def prMatch : List Char → Option (List Char × List Char)
  | '*' :: rest =>
    greedyPlusO isSpace rest (fun s2 =>
      (typeGroupO s2 (fun ty s3 => descSearch ty s3)) <|> descSearch [] s2)
  | _ => none

/-- The `s://` continuation of `https`. -/
def sArmO (k : List Char → List Char → Option α) : List Char → Option α
  | 's' :: s2 =>
    litO [':', '/', '/'] s2 (fun s3 => k ['h', 't', 't', 'p', 's', ':', '/', '/'] s3)
  | _ => none

/-- `https?://` with the matched protocol passed to the continuation. -/
def httpCapO (s : List Char) (k : List Char → List Char → Option α) : Option α :=
  litO ['h', 't', 't', 'p'] s (fun s1 =>
    sArmO k s1 <|> litO [':', '/', '/'] s1 (fun s3 => k ['h', 't', 't', 'p', ':', '/', '/'] s3))

/-- The literal `**Full Changelog**:` of `CHANGELOG_RE`. -/
def clLit : List Char :=
  ['*', '*', 'F', 'u', 'l', 'l', ' ', 'C', 'h', 'a', 'n', 'g', 'e', 'l', 'o', 'g', '*', '*', ':']

/-- `CHANGELOG_RE.match` on a line: `^\*\*Full Changelog\*\*:\s*(?P<url>https?://\S+)`,
prefix-anchored only; returns the `url` capture. -/
def changelogMatch (s : List Char) : Option (List Char) :=
  litO clLit s (fun s1 =>
    greedyManyO isSpace s1 (fun s2 =>
      httpCapO s2 (fun proto s3 =>
        greedyPlusCapO isNonSpace s3 (fun run _ => some (proto ++ run)))))

/-! ### The classifier (`parse_notes`) -/

/-- The `SECTIONS` table of the script. -/
def SECTIONS : List (List Char × List Char) :=
  [(['f', 'e', 'a', 't'], ['W', 'h', 'a', 't', '\'', 's', ' ', 'N', 'e', 'w']),
   (['f', 'i', 'x'], ['F', 'i', 'x', 'e', 's']),
   (['p', 'e', 'r', 'f'], ['P', 'e', 'r', 'f', 'o', 'r', 'm', 'a', 'n', 'c', 'e']),
   (['r', 'e', 'f', 'a', 'c', 't', 'o', 'r'],
    ['U', 'n', 'd', 'e', 'r', ' ', 't', 'h', 'e', ' ', 'H', 'o', 'o', 'd']),
   (['d', 'o', 'c', 's'], ['D', 'o', 'c', 'u', 'm', 'e', 'n', 't', 'a', 't', 'i', 'o', 'n']),
   (['s', 't', 'y', 'l', 'e'], ['S', 't', 'y', 'l', 'e']),
   (['t', 'e', 's', 't'], ['T', 'e', 's', 't', 'i', 'n', 'g'])]

/-- The `SKIP_TYPES` set of the script. -/
def SKIP_TYPES : List (List Char) :=
  [['b', 'u', 'i', 'l', 'd'], ['c', 'i'], ['c', 'h', 'o', 'r', 'e']]

/-- The fallback heading `"Other"`. -/
def otherH : List Char := ['O', 't', 'h', 'e', 'r']

/-- `dict[str, list[str]]` with `setdefault(...).append(...)` semantics:
insertion-ordered association list. -/
def setdefaultAppend :
    List (List Char × List (List Char)) → List Char → List Char →
    List (List Char × List (List Char))
  | [], key, v => [(key, [v])]
  | (k', vs) :: rest, key, v =>
    if k' = key then (k', vs ++ [v]) :: rest
    else (k', vs) :: setdefaultAppend rest key v

/-- The state built by `parse_notes`. -/
structure ParseState where
  sections : List (List Char × List (List Char))
  changelog : Option (List Char)
  deriving DecidableEq

/-- The per-line body of the loop in `parse_notes`. -/
def parseLine (st : ParseState) (rawLine : List Char) : ParseState :=
  match changelogMatch (stripChars rawLine) with
  | some url => { st with changelog := some url }
  | none =>
    match prMatch (stripChars rawLine) with
    | none => st
    | some (ty, desc0) =>
      if ty ∈ SKIP_TYPES then st
      else
        { st with
          sections :=
            setdefaultAppend st.sections ((SECTIONS.lookup ty).getD otherH)
              (stripChars desc0) }

/-- `parse_notes`: categorised entries plus the optional changelog URL. -/
def parse_notes (raw : List Char) : ParseState :=
  (splitlines raw).foldl parseLine { sections := [], changelog := none }

/-! ### The renderers -/

/-- `"\n".join(...)`. -/
def joinNL : List (List Char) → List Char
  | [] => []
  | [l] => l
  | l :: ls => l ++ '\n' :: joinNL ls

/-- Concatenation of the images of `f` (used for the rendering loops). -/
def catMap (f : α → List β) : List α → List β
  | [] => []
  | x :: xs => f x ++ catMap f xs

/-- `list(dict.fromkeys(...))`: deduplication preserving first-occurrence order. -/
def dedupVals (l : List (List Char)) : List (List Char) :=
  l.foldl (fun acc x => if x ∈ acc then acc else acc ++ [x]) []

/-- `ordered_keys` as computed by both renderers. -/
def orderedKeys : List (List Char) :=
  dedupVals (SECTIONS.map (fun kv => kv.2)) ++ [otherH]

/-- `## Brewy ` title prefix. -/
def titleLit : List Char := ['#', '#', ' ', 'B', 'r', 'e', 'w', 'y', ' ']

/-- `### ` heading prefix. -/
def hdr3Lit : List Char := ['#', '#', '#', ' ']

/-- `- ` bullet prefix. -/
def dashLit : List Char := ['-', ' ']

/-- `---` horizontal rule. -/
def hrLit : List Char := ['-', '-', '-']

/-- `**Full Changelog**: ` output prefix (with the trailing space of the f-string). -/
def clOutLit : List Char := clLit ++ [' ']

/-- One markdown section block (empty when the heading is absent or empty,
mirroring Python's falsy test `if not entries`). -/
def sectionBlockMd (secs : List (List Char × List (List Char))) (h : List Char) :
    List (List Char) :=
  match secs.lookup h with
  | none => []
  | some [] => []
  | some es => (hdr3Lit ++ h) :: (es.map (fun e => dashLit ++ e) ++ [[]])

/-- The changelog block of `format_markdown` (guarded by Python truthiness). -/
def urlBlockMd : Option (List Char) → List (List Char)
  | none => []
  | some u => if u = [] then [] else [hrLit, clOutLit ++ u, []]

/-- The line list built by `format_markdown`. -/
def mdLines (tag : List Char) (secs : List (List Char × List (List Char)))
    (url : Option (List Char)) : List (List Char) :=
  ([titleLit ++ tag, []] ++ catMap (sectionBlockMd secs) orderedKeys) ++ urlBlockMd url

/-- `format_markdown`. -/
def format_markdown (tag : List Char) (secs : List (List Char × List (List Char)))
    (url : Option (List Char)) : List Char :=
  joinNL (mdLines tag secs url)

/-- One step of `html.escape`: replace the single character `c` by `r`. -/
def replChar : List Char → Char → List Char → List Char
  | [], _, _ => []
  | x :: xs, c, r => (if x = c then r else [x]) ++ replChar xs c r

/-- `html.escape(s, quote=True)`: the five sequential replacements of CPython. -/
def htmlEscape (s : List Char) : List Char :=
  replChar
    (replChar
      (replChar
        (replChar
          (replChar s '&' ['&', 'a', 'm', 'p', ';'])
          '<' ['&', 'l', 't', ';'])
        '>' ['&', 'g', 't', ';'])
      '"' ['&', 'q', 'u', 'o', 't', ';'])
    '\'' ['&', '#', 'x', '2', '7', ';']

/-- `<h2>` open tag. -/
def h2Open : List Char := ['<', 'h', '2', '>']

/-- `</h2>` close tag. -/
def h2Close : List Char := ['<', '/', 'h', '2', '>']

/-- `<ul>` line. -/
def ulLit : List Char := ['<', 'u', 'l', '>']

/-- `</ul>` line. -/
def ulCloseLit : List Char := ['<', '/', 'u', 'l', '>']

/-- Two-space-indented `<li>` open. -/
def liOpen : List Char := [' ', ' ', '<', 'l', 'i', '>']

/-- `</li>` close tag. -/
def liClose : List Char := ['<', '/', 'l', 'i', '>']

/-- One HTML section block. -/
def sectionBlockHtml (secs : List (List Char × List (List Char))) (h : List Char) :
    List (List Char) :=
  match secs.lookup h with
  | none => []
  | some [] => []
  | some es =>
    (h2Open ++ htmlEscape h ++ h2Close) ::
      ulLit :: (es.map (fun e => liOpen ++ htmlEscape e ++ liClose) ++ [ulCloseLit])

/-- The line list built by `format_html` (tag and changelog URL are taken but unused,
exactly as in the script). -/
def htmlLines (tag : List Char) (secs : List (List Char × List (List Char)))
    (url : Option (List Char)) : List (List Char) :=
  catMap (sectionBlockHtml secs) orderedKeys

/-- `format_html`. -/
def format_html (tag : List Char) (secs : List (List Char × List (List Char)))
    (url : Option (List Char)) : List Char :=
  joinNL (htmlLines tag secs url)

/-! ### `main` -/

/-- Observable outcome of one run of the program (file read modelled by
passing the file's content; I/O errors are outside the model). -/
structure RunResult where
  exitCode : Nat
  usageToStderr : Bool
  stdout : Option (List Char)
  deriving DecidableEq

/-- `--html`. -/
def htmlFlagLit : List Char := ['-', '-', 'h', 't', 'm', 'l']

/-- `main`: `argv` models `sys.argv` (program name included). -/
def runMain (argv : List (List Char)) (fileContent : List Char) : RunResult :=
  if argv.length < 3 then
    { exitCode := 1, usageToStderr := true, stdout := none }
  else
    let tag := argv.getD 2 []
    let wantHtml := htmlFlagLit ∈ argv
    let st := parse_notes fileContent
    { exitCode := 0
      usageToStderr := false
      stdout := some
        ((if wantHtml then format_html tag st.sections st.changelog
          else format_markdown tag st.sections st.changelog) ++ ['\n']) }

/-! ## Character-class facts -/

lemma wd_not_space {c : Char} (h : isWordDash c = true) : isSpace c = false := by
  cases hs : isSpace c with
  | false => rfl
  | true =>
    exfalso
    simp only [isSpace, Bool.or_eq_true, beq_iff_eq] at hs
    repeat' rcases hs with hs | rfl
    all_goals first
      | exact absurd h (by decide)
      | (subst hs; exact absurd h (by decide))

lemma lower_not_space {c : Char} (h : isLowerAlpha c = true) : isSpace c = false := by
  cases hs : isSpace c with
  | false => rfl
  | true =>
    exfalso
    simp only [isSpace, Bool.or_eq_true, beq_iff_eq] at hs
    repeat' rcases hs with hs | rfl
    all_goals first
      | exact absurd h (by decide)
      | (subst hs; exact absurd h (by decide))

lemma nonSpace_not_space {c : Char} (h : isNonSpace c = true) : isSpace c = false := by
  simpa [isNonSpace] using h

lemma space_of_lineBreak {c : Char} (h : isLineBreak c = true) : isSpace c = true := by
  simp only [isLineBreak, Bool.or_eq_true, beq_iff_eq] at h
  repeat' rcases h with h | rfl
  all_goals first
    | decide
    | (subst h; decide)

lemma lineBreak_false_of_not_space {c : Char} (h : isSpace c = false) :
    isLineBreak c = false := by
  cases hlb : isLineBreak c with
  | false => rfl
  | true => rw [space_of_lineBreak hlb] at h; exact absurd h (by decide)

lemma dot_of_not_lineBreak {c : Char} (h : isLineBreak c = false) : isDotCh c = true := by
  by_cases hcn : c = '\n'
  · subst hcn; exact absurd h (by decide)
  · simpa [isDotCh, bne_iff_ne] using hcn

/-! ## Small list helpers -/

lemma head?_append_left {α : Type} {a b : List α} (h : a ≠ []) :
    (a ++ b).head? = a.head? := by
  cases a with
  | nil => exact absurd rfl h
  | cons x xs => rfl

lemma all_reverse_eq {p : Char → Bool} {l : List Char} :
    l.reverse.all p = l.all p := by
  induction l with
  | nil => rfl
  | cons x xs ih =>
    simp [List.reverse_cons, List.all_append, List.all_cons, ih, Bool.and_comm]

lemma head?_reverse_mem {α : Type} {l : List α} {x : α}
    (h : l.reverse.head? = some x) : x ∈ l := by
  cases hr : l.reverse with
  | nil => rw [hr] at h; exact absurd h (by simp)
  | cons y ys =>
    rw [hr] at h
    have hy : y = x := by simpa using h
    have hx : x ∈ l.reverse := by
      rw [hr, ← hy]
      exact List.mem_cons_self _ _
    exact List.mem_reverse.mp hx

lemma exists_cons_of_ne_nil {α : Type} {l : List α} (h : l ≠ []) :
    ∃ x xs, l = x :: xs := by
  cases l with
  | nil => exact absurd rfl h
  | cons x xs => exact ⟨x, xs, rfl⟩

/-- Two maximal runs of `p`-characters at the front of equal lists agree. -/
lemma run_align {p : Char → Bool} :
    ∀ (a c b d : List Char), a.all p = true → c.all p = true →
      (∀ x, b.head? = some x → p x = false) → (∀ x, d.head? = some x → p x = false) →
      a ++ b = c ++ d → a = c ∧ b = d := by
  intro a
  induction a with
  | nil =>
    intro c b d _ hc hb _ he
    cases c with
    | nil => exact ⟨rfl, by simpa using he⟩
    | cons y yt =>
      exfalso
      have hy : b.head? = some y := by
        rw [List.nil_append] at he
        rw [he]; rfl
      have h1 : p y = false := hb y hy
      have h2 : p y = true := by
        have := hc
        simp only [List.all_cons, Bool.and_eq_true] at this
        exact this.1
      rw [h1] at h2; exact absurd h2 (by decide)
  | cons x xt ih =>
    intro c b d ha hc hb hd he
    cases c with
    | nil =>
      exfalso
      have hy : d.head? = some x := by
        rw [List.nil_append] at he
        rw [← he]; rfl
      have h1 : p x = false := hd x hy
      have h2 : p x = true := by
        simp only [List.all_cons, Bool.and_eq_true] at ha
        exact ha.1
      rw [h1] at h2; exact absurd h2 (by decide)
    | cons y yt =>
      simp only [List.cons_append, List.cons.injEq] at he
      obtain ⟨rfl, h2⟩ := he
      simp only [List.all_cons, Bool.and_eq_true] at ha hc
      obtain ⟨e1, e2⟩ := ih yt b d ha.2 hc.2 hb hd h2
      exact ⟨by rw [e1], e2⟩

/-! ## Characterizations of the Boolean (acceptance-only) combinators -/

lemma manyB_nil {p : Char → Bool} {k : List Char → Bool} : manyB p [] k = k [] := by
  rw [manyB]; simp

lemma manyB_cons {p : Char → Bool} {k : List Char → Bool} {c : Char} {cs : List Char} :
    manyB p (c :: cs) k = (k (c :: cs) || (p c && manyB p cs k)) := by
  rw [manyB]

theorem manyB_eq_true {p : Char → Bool} {k : List Char → Bool} :
    ∀ {s : List Char}, manyB p s k = true ↔
      ∃ a b, s = a ++ b ∧ a.all p = true ∧ k b = true := by
  intro s
  induction s with
  | nil =>
    rw [manyB_nil]
    constructor
    · intro h; exact ⟨[], [], rfl, rfl, h⟩
    · rintro ⟨a, b, he, _, hk⟩
      obtain ⟨rfl, rfl⟩ := List.append_eq_nil.mp he.symm
      exact hk
  | cons c cs ih =>
    rw [manyB_cons]
    simp only [Bool.or_eq_true, Bool.and_eq_true]
    constructor
    · rintro (hk | ⟨hp, hm⟩)
      · exact ⟨[], c :: cs, rfl, rfl, hk⟩
      · obtain ⟨a, b, he, ha, hk⟩ := ih.mp hm
        exact ⟨c :: a, b, by rw [he]; rfl, by simp [List.all_cons, hp, ha], hk⟩
    · rintro ⟨a, b, he, ha, hk⟩
      cases a with
      | nil =>
        left
        rw [List.nil_append] at he
        rw [he]; exact hk
      | cons a1 at' =>
        right
        simp only [List.cons_append, List.cons.injEq] at he
        obtain ⟨rfl, h2⟩ := he
        simp only [List.all_cons, Bool.and_eq_true] at ha
        exact ⟨ha.1, ih.mpr ⟨at', b, h2, ha.2, hk⟩⟩

theorem plusB_eq_true {p : Char → Bool} {k : List Char → Bool} {s : List Char} :
    plusB p s k = true ↔
      ∃ a b, s = a ++ b ∧ a ≠ [] ∧ a.all p = true ∧ k b = true := by
  cases s with
  | nil =>
    constructor
    · intro h; exact absurd h (by rw [plusB]; decide)
    · rintro ⟨a, b, he, hne, _, _⟩
      obtain ⟨rfl, rfl⟩ := List.append_eq_nil.mp he.symm
      exact absurd rfl hne
  | cons c cs =>
    rw [plusB]
    simp only [Bool.and_eq_true]
    constructor
    · rintro ⟨hp, hm⟩
      obtain ⟨a, b, he, ha, hk⟩ := manyB_eq_true.mp hm
      exact ⟨c :: a, b, by rw [he]; rfl, by simp, by simp [List.all_cons, hp, ha], hk⟩
    · rintro ⟨a, b, he, hne, ha, hk⟩
      cases a with
      | nil => exact absurd rfl hne
      | cons a1 at' =>
        simp only [List.cons_append, List.cons.injEq] at he
        obtain ⟨rfl, h2⟩ := he
        simp only [List.all_cons, Bool.and_eq_true] at ha
        exact ⟨ha.1, manyB_eq_true.mpr ⟨at', b, h2, ha.2, hk⟩⟩

theorem litB_eq_true {k : List Char → Bool} :
    ∀ {pat s : List Char}, litB pat s k = true ↔ ∃ b, s = pat ++ b ∧ k b = true := by
  intro pat
  induction pat with
  | nil =>
    intro s
    rw [litB]
    constructor
    · intro h; exact ⟨s, rfl, h⟩
    · rintro ⟨b, rfl, hk⟩; exact hk
  | cons pc pr ih =>
    intro s
    cases s with
    | nil =>
      constructor
      · intro h; exact absurd h (by rw [litB]; decide)
      · rintro ⟨b, he, _⟩; exact absurd he.symm (by simp)
    | cons c cs =>
      rw [litB]
      simp only [Bool.and_eq_true, beq_iff_eq]
      constructor
      · rintro ⟨rfl, hl⟩
        obtain ⟨b, rfl, hk⟩ := ih.mp hl
        exact ⟨b, rfl, hk⟩
      · rintro ⟨b, he, hk⟩
        simp only [List.cons_append, List.cons.injEq] at he
        obtain ⟨h1, h2⟩ := he
        exact ⟨h1.symm, ih.mpr ⟨b, h2, hk⟩⟩

theorem atB_eq_true {k : List Char → Bool} {s : List Char} :
    atB s k = true ↔
      ∃ v r, s = '@' :: (v ++ r) ∧ v ≠ [] ∧ v.all isWordDash = true ∧ k r = true := by
  constructor
  · intro h
    unfold atB at h
    split at h
    · rename_i s4
      obtain ⟨a, b, he, hne, ha, hk⟩ := plusB_eq_true.mp h
      exact ⟨a, b, by rw [he], hne, ha, hk⟩
    · exact absurd h (by decide)
  · rintro ⟨v, r, rfl, hne, hv, hk⟩
    have : atB ('@' :: (v ++ r)) k = plusB isWordDash (v ++ r) k := rfl
    rw [this]
    exact plusB_eq_true.mpr ⟨v, r, rfl, hne, hv, hk⟩

/-- `http://`. -/
def http7 : List Char := ['h', 't', 't', 'p', ':', '/', '/']

/-- `https://`. -/
def https8 : List Char := ['h', 't', 't', 'p', 's', ':', '/', '/']

theorem byB_eq_true {k : List Char → Bool} {s : List Char} :
    byB s k = true ↔
      ∃ a b v r, s = a ++ ('b' :: 'y' :: (b ++ ('@' :: (v ++ r)))) ∧
        a ≠ [] ∧ a.all isSpace = true ∧ b ≠ [] ∧ b.all isSpace = true ∧
        v ≠ [] ∧ v.all isWordDash = true ∧ k r = true := by
  unfold byB
  constructor
  · intro h
    obtain ⟨a, s1, rfl, hane, ha, h1⟩ := plusB_eq_true.mp h
    simp only [litB_eq_true] at h1
    obtain ⟨s2, rfl, h2⟩ := h1
    obtain ⟨b, s3, rfl, hbne, hb, h3⟩ := plusB_eq_true.mp h2
    obtain ⟨v, r, rfl, hvne, hv, hk⟩ := atB_eq_true.mp h3
    exact ⟨a, b, v, r, rfl, hane, ha, hbne, hb, hvne, hv, hk⟩
  · rintro ⟨a, b, v, r, rfl, hane, ha, hbne, hb, hvne, hv, hk⟩
    refine plusB_eq_true.mpr ⟨a, _, rfl, hane, ha, ?_⟩
    simp only [litB_eq_true]
    refine ⟨_, rfl, ?_⟩
    refine plusB_eq_true.mpr ⟨b, _, rfl, hbne, hb, ?_⟩
    exact atB_eq_true.mpr ⟨v, r, rfl, hvne, hv, hk⟩

theorem httpB_eq_true {k : List Char → Bool} {s : List Char} :
    httpB s k = true ↔
      ∃ pr r, s = pr ++ r ∧ (pr = http7 ∨ pr = https8) ∧ k r = true := by
  unfold httpB
  constructor
  · intro h
    simp only [litB_eq_true] at h
    obtain ⟨s1, rfl, h1⟩ := h
    unfold sOptB at h1
    rw [Bool.or_eq_true] at h1
    rcases h1 with h2 | h2
    · split at h2
      · rename_i s2
        simp only [litB_eq_true] at h2
        obtain ⟨r, rfl, hk⟩ := h2
        exact ⟨https8, r, rfl, Or.inr rfl, hk⟩
      · exact absurd h2 (by decide)
    · simp only [litB_eq_true] at h2
      obtain ⟨r, rfl, hk⟩ := h2
      exact ⟨http7, r, rfl, Or.inl rfl, hk⟩
  · rintro ⟨pr, r, rfl, hpr | hpr, hk⟩ <;> subst hpr
    · simp only [litB_eq_true]
      refine ⟨_, rfl, ?_⟩
      unfold sOptB
      rw [Bool.or_eq_true]
      refine Or.inr ?_
      simp only [litB_eq_true]
      exact ⟨r, rfl, hk⟩
    · simp only [litB_eq_true]
      refine ⟨_, rfl, ?_⟩
      unfold sOptB
      rw [Bool.or_eq_true]
      refine Or.inl ?_
      simp only [litB_eq_true]
      exact ⟨r, rfl, hk⟩

theorem inB_eq_true {k : List Char → Bool} {s : List Char} :
    inB s k = true ↔
      ∃ a b pr z r, s = a ++ ('i' :: 'n' :: (b ++ (pr ++ (z ++ r)))) ∧
        a ≠ [] ∧ a.all isSpace = true ∧ b ≠ [] ∧ b.all isSpace = true ∧
        (pr = http7 ∨ pr = https8) ∧ z ≠ [] ∧ z.all isNonSpace = true ∧ k r = true := by
  unfold inB
  constructor
  · intro h
    obtain ⟨a, s1, rfl, hane, ha, h1⟩ := plusB_eq_true.mp h
    simp only [litB_eq_true] at h1
    obtain ⟨s2, rfl, h2⟩ := h1
    obtain ⟨b, s3, rfl, hbne, hb, h3⟩ := plusB_eq_true.mp h2
    obtain ⟨pr, s4, rfl, hpr, h4⟩ := httpB_eq_true.mp h3
    obtain ⟨z, r, rfl, hzne, hz, hk⟩ := plusB_eq_true.mp h4
    exact ⟨a, b, pr, z, r, rfl, hane, ha, hbne, hb, hpr, hzne, hz, hk⟩
  · rintro ⟨a, b, pr, z, r, rfl, hane, ha, hbne, hb, hpr, hzne, hz, hk⟩
    refine plusB_eq_true.mpr ⟨a, _, rfl, hane, ha, ?_⟩
    simp only [litB_eq_true]
    refine ⟨_, rfl, ?_⟩
    refine plusB_eq_true.mpr ⟨b, _, rfl, hbne, hb, ?_⟩
    refine httpB_eq_true.mpr ⟨pr, _, rfl, hpr, ?_⟩
    exact plusB_eq_true.mpr ⟨z, r, rfl, hzne, hz, hk⟩

theorem endB_eq_true {s : List Char} :
    endB s = true ↔
      ∃ a e, s = a ++ e ∧ a.all isSpace = true ∧ (e = [] ∨ e = ['\n']) := by
  unfold endB
  rw [manyB_eq_true]
  constructor
  · rintro ⟨a, b, rfl, ha, hb⟩
    refine ⟨a, b, rfl, ha, ?_⟩
    unfold endOkB at hb
    rw [Bool.or_eq_true] at hb
    rcases hb with h | h
    · exact Or.inl (by simpa using h)
    · exact Or.inr (by simpa using h)
  · rintro ⟨a, e, rfl, ha, he⟩
    refine ⟨a, e, rfl, ha, ?_⟩
    unfold endOkB
    rcases he with rfl | rfl <;> decide

lemma all_space_append {a b : List Char} (ha : a.all isSpace = true)
    (hb : b.all isSpace = true) : (a ++ b).all isSpace = true := by
  simp [List.all_append, ha, hb]

lemma end_part_space {e : List Char} (he : e = [] ∨ e = ['\n']) :
    e.all isSpace = true := by
  rcases he with rfl | rfl <;> decide

/-- Coarse consequence of the `PR_RE` tail accepting a string: the string is
all white space, or mentions `@` (from the `by`-group) or `/` (from the URL). -/
lemma tailAccept_coarse {s : List Char} (h : tailAccept s = true) :
    s.all isSpace = true ∨ '@' ∈ s ∨ '/' ∈ s := by
  unfold tailAccept at h
  rw [Bool.or_eq_true] at h
  rcases h with h1 | h1
  · obtain ⟨a, b, v, r, rfl, _, _, _, _, _, _, _⟩ := byB_eq_true.mp h1
    right; left
    simp [List.mem_append, List.mem_cons]
  · rw [Bool.or_eq_true] at h1
    rcases h1 with h2 | h2
    · obtain ⟨a, b, pr, z, r, rfl, _, _, _, _, hpr, _, _, _⟩ := inB_eq_true.mp h2
      right; right
      have : '/' ∈ pr := by rcases hpr with rfl | rfl <;> decide
      simp only [List.mem_append, List.mem_cons]
      tauto
    · obtain ⟨a, e, rfl, ha, he⟩ := endB_eq_true.mp h2
      exact Or.inl (all_space_append ha (end_part_space he))

/-- ` by @` as it appears in a generated PR line. -/
def byAtLit : List Char := [' ', 'b', 'y', ' ', '@']

/-- ` in ` as it appears in a generated PR line. -/
def inSpLit : List Char := [' ', 'i', 'n', ' ']

/-- `w` is an `https?://\S+` URL: protocol prefix followed by a nonempty run of
non-white-space characters. -/
def UrlOkP (w : List Char) : Prop :=
  ∃ z, (w = http7 ++ z ∨ w = https8 ++ z) ∧ z ≠ [] ∧ z.all isNonSpace = true

lemma all_append_tt {p : Char → Bool} {a b : List Char} (ha : a.all p = true)
    (hb : b.all p = true) : (a ++ b).all p = true := by
  simp [List.all_append, ha, hb]

lemma not_mem_of_all {p : Char → Bool} {c : Char} {l : List Char}
    (hall : l.all p = true) (hc : p c = false) : c ∉ l := by
  intro hm
  rw [List.all_eq_true.mp hall c hm] at hc
  exact absurd hc (by decide)

lemma head_false_of_rev_all {l t : List Char} {p q : Char → Bool} (hne : l ≠ [])
    (hall : l.all p = true) (himp : ∀ x, p x = true → q x = false) :
    ∀ x, (l.reverse ++ t).head? = some x → q x = false := by
  intro x hx
  have hrn : l.reverse ≠ [] := fun hr => hne (List.reverse_eq_nil_iff.mp hr)
  rw [head?_append_left hrn] at hx
  exact himp x (List.all_eq_true.mp hall x (head?_reverse_mem hx))

lemma head_cons_false {c : Char} {t : List Char} {q : Char → Bool} (hc : q c = false) :
    ∀ x, (c :: t).head? = some x → q x = false := by
  intro x hx
  have hcx : c = x := by simpa using hx
  rw [← hcx]
  exact hc

lemma space_not_nonSpace {x : Char} (h : isSpace x = true) : isNonSpace x = false := by
  simp [isNonSpace, h]

lemma urlOkP_nonSpace {w : List Char} (hw : UrlOkP w) : w.all isNonSpace = true := by
  obtain ⟨z, hwe, _, hz⟩ := hw
  rcases hwe with rfl | rfl
  · exact all_append_tt (by decide) hz
  · exact all_append_tt (by decide) hz

lemma urlOkP_ne_nil {w : List Char} (hw : UrlOkP w) : w ≠ [] := by
  obtain ⟨z, hwe, _, _⟩ := hw
  rcases hwe with rfl | rfl <;> simp [http7, https8]

lemma urlOkP_slash {w : List Char} (hw : UrlOkP w) : '/' ∈ w := by
  obtain ⟨z, hwe, _, _⟩ := hw
  rcases hwe with rfl | rfl
  · exact List.mem_append_left _ (by decide)
  · exact List.mem_append_left _ (by decide)

/-- If the `PR_RE` tail accepts `suf ++ " by @" ++ u ++ " in " ++ w` (with `u` a
username and `w` a URL), then `suf` is entirely white space: the backtracking
search cannot consume any other shape. -/
lemma tailAccept_elim {suf u w : List Char} (hu : u ≠ []) (huw : u.all isWordDash = true)
    (hw : UrlOkP w)
    (h : tailAccept (suf ++ (byAtLit ++ (u ++ (inSpLit ++ w)))) = true) :
    suf.all isSpace = true := by
  have hwns : w.all isNonSpace = true := urlOkP_nonSpace hw
  have hwne : w ≠ [] := urlOkP_ne_nil hw
  have hslash : '/' ∈ w := urlOkP_slash hw
  unfold tailAccept at h
  rw [Bool.or_eq_true] at h
  rcases h with h1 | h1
  · -- the optional `by`-group is present
    obtain ⟨a, b, v, r, heq, hane, ha, hbne, hbs, hvne, hv, hk⟩ := byB_eq_true.mp h1
    simp only [Bool.or_eq_true] at hk
    rcases hk with h2 | h2
    · -- `in`-group also present
      obtain ⟨a2, b2, pr2, z2, r2, hre, ha2ne, ha2, hb2ne, hb2, hpr2, hz2ne, hz2, hend⟩ :=
        inB_eq_true.mp h2
      subst hre
      obtain ⟨S, E, hr2e, hS, hE⟩ := endB_eq_true.mp hend
      subst hr2e
      have hrev :
          E.reverse ++ (S.reverse ++ (z2.reverse ++ (pr2.reverse ++ (b2.reverse ++
            ('n' :: 'i' :: (a2.reverse ++ (v.reverse ++ ('@' :: (b.reverse ++
              ('y' :: 'b' :: a.reverse)))))))))) =
          w.reverse ++ (' ' :: 'n' :: 'i' :: ' ' :: (u.reverse ++
            ('@' :: ' ' :: 'y' :: 'b' :: ' ' :: suf.reverse))) := by
        have hc := congrArg List.reverse heq
        simpa [byAtLit, inSpLit, List.reverse_append, List.reverse_cons, List.reverse_nil,
          List.append_assoc, List.cons_append, List.nil_append, List.append_nil] using hc.symm
      rw [← List.append_assoc] at hrev
      obtain ⟨hES, hrest⟩ :=
        run_align (E.reverse ++ S.reverse) []
          (z2.reverse ++ (pr2.reverse ++ (b2.reverse ++
            ('n' :: 'i' :: (a2.reverse ++ (v.reverse ++ ('@' :: (b.reverse ++
              ('y' :: 'b' :: a.reverse)))))))))
          (w.reverse ++ (' ' :: 'n' :: 'i' :: ' ' :: (u.reverse ++
            ('@' :: ' ' :: 'y' :: 'b' :: ' ' :: suf.reverse))))
          (all_append_tt (by rcases hE with rfl | rfl <;> decide)
            (by rw [all_reverse_eq]; exact hS))
          rfl
          (head_false_of_rev_all hz2ne hz2 (fun x hx => nonSpace_not_space hx))
          (head_false_of_rev_all hwne hwns (fun x hx => nonSpace_not_space hx))
          hrev
      rw [← List.append_assoc] at hrest
      obtain ⟨-, hN⟩ :=
        run_align (z2.reverse ++ pr2.reverse) w.reverse
          (b2.reverse ++ ('n' :: 'i' :: (a2.reverse ++ (v.reverse ++ ('@' :: (b.reverse ++
            ('y' :: 'b' :: a.reverse)))))))
          (' ' :: 'n' :: 'i' :: ' ' :: (u.reverse ++
            ('@' :: ' ' :: 'y' :: 'b' :: ' ' :: suf.reverse)))
          (all_append_tt (by rw [all_reverse_eq]; exact hz2)
            (by rcases hpr2 with rfl | rfl <;> decide))
          (by rw [all_reverse_eq]; exact hwns)
          (head_false_of_rev_all hb2ne hb2 (fun x hx => space_not_nonSpace hx))
          (head_cons_false (by decide))
          hrest
      obtain ⟨-, h3⟩ :=
        run_align b2.reverse [' ']
          ('n' :: 'i' :: (a2.reverse ++ (v.reverse ++ ('@' :: (b.reverse ++
            ('y' :: 'b' :: a.reverse))))))
          ('n' :: 'i' :: ' ' :: (u.reverse ++
            ('@' :: ' ' :: 'y' :: 'b' :: ' ' :: suf.reverse)))
          (by rw [all_reverse_eq]; exact hb2) (by decide)
          (head_cons_false (by decide)) (head_cons_false (by decide))
          hN
      simp only [List.cons.injEq, true_and] at h3
      obtain ⟨-, h4⟩ :=
        run_align a2.reverse [' ']
          (v.reverse ++ ('@' :: (b.reverse ++ ('y' :: 'b' :: a.reverse))))
          (u.reverse ++ ('@' :: ' ' :: 'y' :: 'b' :: ' ' :: suf.reverse))
          (by rw [all_reverse_eq]; exact ha2) (by decide)
          (head_false_of_rev_all hvne hv (fun x hx => wd_not_space hx))
          (head_false_of_rev_all hu huw (fun x hx => wd_not_space hx))
          h3
      obtain ⟨-, h5⟩ :=
        run_align v.reverse u.reverse
          ('@' :: (b.reverse ++ ('y' :: 'b' :: a.reverse)))
          ('@' :: ' ' :: 'y' :: 'b' :: ' ' :: suf.reverse)
          (by rw [all_reverse_eq]; exact hv) (by rw [all_reverse_eq]; exact huw)
          (head_cons_false (by decide)) (head_cons_false (by decide))
          h4
      simp only [List.cons.injEq, true_and] at h5
      obtain ⟨-, h6⟩ :=
        run_align b.reverse [' ']
          ('y' :: 'b' :: a.reverse)
          ('y' :: 'b' :: ' ' :: suf.reverse)
          (by rw [all_reverse_eq]; exact hbs) (by decide)
          (head_cons_false (by decide)) (head_cons_false (by decide))
          h5
      simp only [List.cons.injEq, true_and] at h6
      have h7 : a.reverse.all isSpace = true := by rw [all_reverse_eq]; exact ha
      rw [h6] at h7
      rw [List.all_cons, Bool.and_eq_true] at h7
      rw [← all_reverse_eq]
      exact h7.2
    · -- `by` present, `in` absent: impossible, the `/` of the URL is unaccounted for
      exfalso
      obtain ⟨S, E, hre, hS, hE⟩ := endB_eq_true.mp h2
      subst hre
      have hm : '/' ∈ suf ++ (byAtLit ++ (u ++ (inSpLit ++ w))) :=
        List.mem_append_right _ (List.mem_append_right _ (List.mem_append_right _
          (List.mem_append_right _ hslash)))
      rw [heq] at hm
      simp only [List.mem_append, List.mem_cons] at hm
      rcases hm with hm | hm | hm | hm | hm | hm | hm | hm
      · exact absurd hm (not_mem_of_all ha (by decide))
      · exact absurd hm (by decide)
      · exact absurd hm (by decide)
      · exact absurd hm (not_mem_of_all hbs (by decide))
      · exact absurd hm (by decide)
      · exact absurd hm (not_mem_of_all hv (by decide))
      · exact absurd hm (not_mem_of_all hS (by decide))
      · rcases hE with rfl | rfl <;> exact absurd hm (by decide)
  · simp only [Bool.or_eq_true] at h1
    rcases h1 with h2 | h2
    · -- `by` absent, `in` present: impossible, `u` would have to be white space
      exfalso
      obtain ⟨a2, b2, pr2, z2, r2, heq, ha2ne, ha2, hb2ne, hb2, hpr2, hz2ne, hz2, hend⟩ :=
        inB_eq_true.mp h2
      obtain ⟨S, E, hr2e, hS, hE⟩ := endB_eq_true.mp hend
      subst hr2e
      have hrev :
          E.reverse ++ (S.reverse ++ (z2.reverse ++ (pr2.reverse ++ (b2.reverse ++
            ('n' :: 'i' :: a2.reverse))))) =
          w.reverse ++ (' ' :: 'n' :: 'i' :: ' ' :: (u.reverse ++
            ('@' :: ' ' :: 'y' :: 'b' :: ' ' :: suf.reverse))) := by
        have hc := congrArg List.reverse heq
        simpa [byAtLit, inSpLit, List.reverse_append, List.reverse_cons, List.reverse_nil,
          List.append_assoc, List.cons_append, List.nil_append, List.append_nil] using hc.symm
      rw [← List.append_assoc] at hrev
      obtain ⟨hES, hrest⟩ :=
        run_align (E.reverse ++ S.reverse) []
          (z2.reverse ++ (pr2.reverse ++ (b2.reverse ++ ('n' :: 'i' :: a2.reverse))))
          (w.reverse ++ (' ' :: 'n' :: 'i' :: ' ' :: (u.reverse ++
            ('@' :: ' ' :: 'y' :: 'b' :: ' ' :: suf.reverse))))
          (all_append_tt (by rcases hE with rfl | rfl <;> decide)
            (by rw [all_reverse_eq]; exact hS))
          rfl
          (head_false_of_rev_all hz2ne hz2 (fun x hx => nonSpace_not_space hx))
          (head_false_of_rev_all hwne hwns (fun x hx => nonSpace_not_space hx))
          hrev
      rw [← List.append_assoc] at hrest
      obtain ⟨-, hN⟩ :=
        run_align (z2.reverse ++ pr2.reverse) w.reverse
          (b2.reverse ++ ('n' :: 'i' :: a2.reverse))
          (' ' :: 'n' :: 'i' :: ' ' :: (u.reverse ++
            ('@' :: ' ' :: 'y' :: 'b' :: ' ' :: suf.reverse)))
          (all_append_tt (by rw [all_reverse_eq]; exact hz2)
            (by rcases hpr2 with rfl | rfl <;> decide))
          (by rw [all_reverse_eq]; exact hwns)
          (head_false_of_rev_all hb2ne hb2 (fun x hx => space_not_nonSpace hx))
          (head_cons_false (by decide))
          hrest
      obtain ⟨-, h3⟩ :=
        run_align b2.reverse [' ']
          ('n' :: 'i' :: a2.reverse)
          ('n' :: 'i' :: ' ' :: (u.reverse ++
            ('@' :: ' ' :: 'y' :: 'b' :: ' ' :: suf.reverse)))
          (by rw [all_reverse_eq]; exact hb2) (by decide)
          (head_cons_false (by decide)) (head_cons_false (by decide))
          hN
      simp only [List.cons.injEq, true_and] at h3
      have h7 : a2.reverse.all isSpace = true := by rw [all_reverse_eq]; exact ha2
      rw [h3] at h7
      rw [List.all_cons, Bool.and_eq_true] at h7
      have h8 : u.reverse.all isSpace = true := by
        have := h7.2
        rw [List.all_append, Bool.and_eq_true] at this
        exact this.1
      rw [all_reverse_eq] at h8
      obtain ⟨uc, ut, rfl⟩ := exists_cons_of_ne_nil hu
      rw [List.all_cons, Bool.and_eq_true] at h8 huw
      have := wd_not_space huw.1
      rw [h8.1] at this
      exact absurd this (by decide)
    · -- both groups absent: impossible, the `@` is unaccounted for
      exfalso
      obtain ⟨S, E, heq, hS, hE⟩ := endB_eq_true.mp h2
      have hm : '@' ∈ suf ++ (byAtLit ++ (u ++ (inSpLit ++ w))) :=
        List.mem_append_right _ (List.mem_append_left _ (by decide))
      rw [heq] at hm
      rcases List.mem_append.mp hm with hm | hm
      · exact absurd hm (not_mem_of_all hS (by decide))
      · rcases hE with rfl | rfl <;> exact absurd hm (by decide)

/-- Conversely: when `suf` is white space, the tail accepts
`suf ++ " by @" ++ u ++ " in " ++ w`. -/
lemma tailAccept_intro {suf u w : List Char} (hsuf : suf.all isSpace = true) (hu : u ≠ [])
    (huw : u.all isWordDash = true) (hw : UrlOkP w) :
    tailAccept (suf ++ (byAtLit ++ (u ++ (inSpLit ++ w)))) = true := by
  obtain ⟨z, hwe, hzne, hz⟩ := hw
  unfold tailAccept
  rw [Bool.or_eq_true]
  left
  apply byB_eq_true.mpr
  refine ⟨suf ++ [' '], [' '], u, inSpLit ++ w, ?_, by simp, all_append_tt hsuf (by decide),
    by simp, by decide, hu, huw, ?_⟩
  · simp [byAtLit, inSpLit, List.append_assoc, List.cons_append]
  · simp only [Bool.or_eq_true]
    left
    apply inB_eq_true.mpr
    rcases hwe with rfl | rfl
    · refine ⟨[' '], [' '], http7, z, [], ?_, by simp, by decide, by simp, by decide,
        Or.inl rfl, hzne, hz, by decide⟩
      simp [inSpLit, List.append_assoc, List.cons_append]
    · refine ⟨[' '], [' '], https8, z, [], ?_, by simp, by decide, by simp, by decide,
        Or.inr rfl, hzne, hz, by decide⟩
      simp [inSpLit, List.append_assoc, List.cons_append]

/-! ## Evaluation and soundness of the Option combinators -/

lemma orElse_eq_some_cases {α : Type} {a : Option α} {f : Unit → Option α} {v : α}
    (h : (a.orElse f) = some v) : a = some v ∨ (a = none ∧ f () = some v) := by
  cases a with
  | none => exact Or.inr ⟨rfl, h⟩
  | some x => exact Or.inl h

lemma some_orElse_eq {α : Type} {v : α} {x : Option α} : (some v <|> x) = some v := rfl

lemma none_orElse_eq {α : Type} {x : Option α} : (none <|> x) = x := rfl

lemma greedyManyO_eval {α : Type} {p : Char → Bool} {k : List Char → Option α} {v : α} :
    ∀ {xs ys : List Char}, xs.all p = true →
      (∀ x, ys.head? = some x → p x = false) → k ys = some v →
      greedyManyO p (xs ++ ys) k = some v := by
  intro xs
  induction xs with
  | nil =>
    intro ys _ hb hk
    cases ys with
    | nil => exact hk
    | cons c cs =>
      have hc : p c = false := hb c rfl
      rw [List.nil_append, greedyManyO, if_neg (by simp [hc])]
      exact hk
  | cons x xt ih =>
    intro ys ha hb hk
    rw [List.all_cons, Bool.and_eq_true] at ha
    rw [List.cons_append, greedyManyO, if_pos ha.1, ih ha.2 hb hk]
    rfl

lemma greedyPlusO_eval {α : Type} {p : Char → Bool} {k : List Char → Option α} {v : α}
    {xs ys : List Char} (hne : xs ≠ []) (ha : xs.all p = true)
    (hb : ∀ x, ys.head? = some x → p x = false) (hk : k ys = some v) :
    greedyPlusO p (xs ++ ys) k = some v := by
  obtain ⟨x, xt, rfl⟩ := exists_cons_of_ne_nil hne
  rw [List.all_cons, Bool.and_eq_true] at ha
  rw [List.cons_append, greedyPlusO, if_pos ha.1]
  exact greedyManyO_eval ha.2 hb hk

lemma greedyManyCapO_eval {α : Type} {p : Char → Bool} {v : α} :
    ∀ {xs : List Char} {k : List Char → List Char → Option α} {ys : List Char},
      xs.all p = true → (∀ x, ys.head? = some x → p x = false) → k xs ys = some v →
      greedyManyCapO p (xs ++ ys) k = some v := by
  intro xs
  induction xs with
  | nil =>
    intro k ys _ hb hk
    cases ys with
    | nil => exact hk
    | cons c cs =>
      have hc : p c = false := hb c rfl
      rw [List.nil_append, greedyManyCapO, if_neg (by simp [hc])]
      exact hk
  | cons x xt ih =>
    intro k ys ha hb hk
    rw [List.all_cons, Bool.and_eq_true] at ha
    rw [List.cons_append, greedyManyCapO, if_pos ha.1,
      ih ha.2 hb hk]
    rfl

lemma greedyPlusCapO_eval {α : Type} {p : Char → Bool} {v : α}
    {xs ys : List Char} {k : List Char → List Char → Option α}
    (hne : xs ≠ []) (ha : xs.all p = true)
    (hb : ∀ x, ys.head? = some x → p x = false) (hk : k xs ys = some v) :
    greedyPlusCapO p (xs ++ ys) k = some v := by
  obtain ⟨x, xt, rfl⟩ := exists_cons_of_ne_nil hne
  rw [List.all_cons, Bool.and_eq_true] at ha
  rw [List.cons_append, greedyPlusCapO, if_pos ha.1]
  exact greedyManyCapO_eval ha.2 hb hk

lemma greedyManyCapO_none {α : Type} {p : Char → Bool} :
    ∀ {s : List Char} {k : List Char → List Char → Option α},
      (∀ cap rest, s = cap ++ rest → cap.all p = true → k cap rest = none) →
      greedyManyCapO p s k = none := by
  intro s
  induction s with
  | nil =>
    intro k hk
    exact hk [] [] rfl rfl
  | cons c cs ih =>
    intro k hk
    rw [greedyManyCapO]
    by_cases hc : p c = true
    · rw [if_pos hc]
      have h1 : greedyManyCapO p cs (fun cap rest => k (c :: cap) rest) = none := by
        apply ih
        intro cap rest hre hall
        exact hk (c :: cap) rest (by rw [hre]; rfl) (by simp [List.all_cons, hc, hall])
      rw [h1, none_orElse_eq]
      exact hk [] (c :: cs) rfl rfl
    · rw [if_neg hc]
      exact hk [] (c :: cs) rfl rfl

lemma greedyPlusCapO_none {α : Type} {p : Char → Bool} {s : List Char}
    {k : List Char → List Char → Option α}
    (hk : ∀ cap rest, s = cap ++ rest → cap ≠ [] → cap.all p = true → k cap rest = none) :
    greedyPlusCapO p s k = none := by
  cases s with
  | nil => rfl
  | cons c cs =>
    rw [greedyPlusCapO]
    by_cases hc : p c = true
    · rw [if_pos hc]
      apply greedyManyCapO_none
      intro cap rest hre hall
      exact hk (c :: cap) rest (by rw [hre]; rfl) (by simp)
        (by simp [List.all_cons, hc, hall])
    · rw [if_neg hc]

lemma lazyPlusCapO_eval {α : Type} {p : Char → Bool} {v : α} :
    ∀ {xs : List Char} {k : List Char → List Char → Option α} {ys : List Char},
      xs ≠ [] → xs.all p = true →
      (∀ pre mid, xs = pre ++ mid → pre ≠ [] → mid ≠ [] → k pre (mid ++ ys) = none) →
      k xs ys = some v →
      lazyPlusCapO p (xs ++ ys) k = some v := by
  intro xs
  induction xs with
  | nil => intro k ys hne _ _ _; exact absurd rfl hne
  | cons x xt ih =>
    intro k ys _ ha hmin hk
    rw [List.all_cons, Bool.and_eq_true] at ha
    rw [List.cons_append, lazyPlusCapO, if_pos ha.1]
    cases xt with
    | nil =>
      rw [List.nil_append]
      rw [hk]
      rfl
    | cons x2 xt2 =>
      have h1 : k [x] ((x2 :: xt2) ++ ys) = none :=
        hmin [x] (x2 :: xt2) rfl (by simp) (by simp)
      rw [h1, none_orElse_eq]
      apply ih (k := fun cap rest => k (x :: cap) rest) (by simp) ha.2
      · intro pre mid hre hprene hmidne
        exact hmin (x :: pre) mid (by rw [hre]; rfl) (by simp) hmidne
      · exact hk

lemma greedyManyO_sound {α : Type} {p : Char → Bool} {k : List Char → Option α} {v : α} :
    ∀ {s : List Char}, greedyManyO p s k = some v →
      ∃ a b, s = a ++ b ∧ a.all p = true ∧ k b = some v := by
  intro s
  induction s with
  | nil => intro h; exact ⟨[], [], rfl, rfl, h⟩
  | cons c cs ih =>
    intro h
    rw [greedyManyO] at h
    by_cases hc : p c = true
    · rw [if_pos hc] at h
      rcases orElse_eq_some_cases h with h1 | ⟨-, h1⟩
      · obtain ⟨a, b, rfl, ha, hk⟩ := ih h1
        exact ⟨c :: a, b, rfl, by simp [List.all_cons, hc, ha], hk⟩
      · exact ⟨[], c :: cs, rfl, rfl, h1⟩
    · rw [if_neg hc] at h
      exact ⟨[], c :: cs, rfl, rfl, h⟩

lemma greedyPlusO_sound {α : Type} {p : Char → Bool} {k : List Char → Option α} {v : α}
    {s : List Char} (h : greedyPlusO p s k = some v) :
    ∃ a b, s = a ++ b ∧ a ≠ [] ∧ a.all p = true ∧ k b = some v := by
  cases s with
  | nil => exact absurd h (by rw [greedyPlusO]; simp)
  | cons c cs =>
    rw [greedyPlusO] at h
    by_cases hc : p c = true
    · rw [if_pos hc] at h
      obtain ⟨a, b, rfl, ha, hk⟩ := greedyManyO_sound h
      exact ⟨c :: a, b, rfl, by simp, by simp [List.all_cons, hc, ha], hk⟩
    · rw [if_neg hc] at h
      exact absurd h (by simp)

lemma greedyManyCapO_sound {α : Type} {p : Char → Bool} {v : α} :
    ∀ {s : List Char} {k : List Char → List Char → Option α},
      greedyManyCapO p s k = some v →
      ∃ a b, s = a ++ b ∧ a.all p = true ∧ k a b = some v := by
  intro s
  induction s with
  | nil => intro k h; exact ⟨[], [], rfl, rfl, h⟩
  | cons c cs ih =>
    intro k h
    rw [greedyManyCapO] at h
    by_cases hc : p c = true
    · rw [if_pos hc] at h
      rcases orElse_eq_some_cases h with h1 | ⟨-, h1⟩
      · obtain ⟨a, b, rfl, ha, hk⟩ := ih h1
        exact ⟨c :: a, b, rfl, by simp [List.all_cons, hc, ha], hk⟩
      · exact ⟨[], c :: cs, rfl, rfl, h1⟩
    · rw [if_neg hc] at h
      exact ⟨[], c :: cs, rfl, rfl, h⟩

lemma greedyPlusCapO_sound {α : Type} {p : Char → Bool} {v : α}
    {s : List Char} {k : List Char → List Char → Option α}
    (h : greedyPlusCapO p s k = some v) :
    ∃ a b, s = a ++ b ∧ a ≠ [] ∧ a.all p = true ∧ k a b = some v := by
  cases s with
  | nil => exact absurd h (by rw [greedyPlusCapO]; simp)
  | cons c cs =>
    rw [greedyPlusCapO] at h
    by_cases hc : p c = true
    · rw [if_pos hc] at h
      obtain ⟨a, b, rfl, ha, hk⟩ := greedyManyCapO_sound h
      exact ⟨c :: a, b, rfl, by simp, by simp [List.all_cons, hc, ha], hk⟩
    · rw [if_neg hc] at h
      exact absurd h (by simp)

lemma lazyPlusCapO_sound {α : Type} {p : Char → Bool} {v : α} :
    ∀ {s : List Char} {k : List Char → List Char → Option α},
      lazyPlusCapO p s k = some v →
      ∃ a b, s = a ++ b ∧ a ≠ [] ∧ a.all p = true ∧ k a b = some v := by
  intro s
  induction s with
  | nil => intro k h; exact absurd h (by rw [lazyPlusCapO]; simp)
  | cons c cs ih =>
    intro k h
    rw [lazyPlusCapO] at h
    by_cases hc : p c = true
    · rw [if_pos hc] at h
      rcases orElse_eq_some_cases h with h1 | ⟨-, h1⟩
      · exact ⟨[c], cs, rfl, by simp, by simp [hc], h1⟩
      · obtain ⟨a, b, rfl, hane, ha, hk⟩ := ih h1
        exact ⟨c :: a, b, rfl, by simp, by simp [List.all_cons, hc, ha], hk⟩
    · rw [if_neg hc] at h
      exact absurd h (by simp)

lemma litO_eval {α : Type} {pat b : List Char} {k : List Char → Option α} :
    litO pat (pat ++ b) k = k b := by
  unfold litO
  rw [if_pos]
  · rw [List.drop_left]
  · exact List.isPrefixOf_iff_prefix.mpr ⟨b, rfl⟩

lemma litO_sound {α : Type} {pat s : List Char} {k : List Char → Option α} {v : α}
    (h : litO pat s k = some v) : ∃ b, s = pat ++ b ∧ k b = some v := by
  unfold litO at h
  by_cases hp : pat.isPrefixOf s
  · rw [if_pos hp] at h
    obtain ⟨b, rfl⟩ := List.isPrefixOf_iff_prefix.mp hp
    rw [List.drop_left] at h
    exact ⟨b, rfl, h⟩
  · rw [if_neg hp] at h
    exact absurd h (by simp)

/-! ## `strip`, `dropWhile` and `splitlines` facts -/

lemma dropWhile_head_false {p : Char → Bool} :
    ∀ {l : List Char} {x : Char}, (l.dropWhile p).head? = some x → p x = false := by
  intro l
  induction l with
  | nil => intro x hx; exact absurd hx (by simp)
  | cons c cs ih =>
    intro x hx
    rw [List.dropWhile_cons] at hx
    by_cases hc : p c = true
    · rw [if_pos hc] at hx
      exact ih hx
    · rw [if_neg hc] at hx
      have : c = x := by simpa using hx
      rw [← this]
      exact Bool.not_eq_true _ ▸ hc

lemma dropWhile_eq_self_of_head {p : Char → Bool} {l : List Char}
    (h : ∀ x, l.head? = some x → p x = false) : l.dropWhile p = l := by
  cases l with
  | nil => rfl
  | cons c cs =>
    rw [List.dropWhile_cons, if_neg]
    simp [h c rfl]

lemma getLast?_eq_revHead : ∀ {l : List Char}, l.getLast? = l.reverse.head? := by
  intro l
  induction l with
  | nil => rfl
  | cons c cs ih =>
    cases cs with
    | nil => rfl
    | cons c2 cs2 =>
      rw [List.getLast?_cons_cons, List.reverse_cons, head?_append_left (by simp)]
      exact ih

lemma takeWhile_all {p : Char → Bool} : ∀ {l : List Char}, (l.takeWhile p).all p = true := by
  intro l
  induction l with
  | nil => rfl
  | cons c cs ih =>
    rw [List.takeWhile_cons]
    by_cases hc : p c = true
    · rw [if_pos hc]
      simp [List.all_cons, hc, ih]
    · rw [if_neg hc]
      rfl

lemma getLast?_mem_self {α : Type} : ∀ {l : List α} {x : α}, l.getLast? = some x → x ∈ l := by
  intro l
  induction l with
  | nil => intro x hx; exact absurd hx (by simp)
  | cons c cs ih =>
    intro x hx
    cases cs with
    | nil =>
      have : c = x := by simpa using hx
      rw [this]
      exact List.mem_cons_self _ _
    | cons c2 cs2 =>
      rw [List.getLast?_cons_cons] at hx
      exact List.mem_cons_of_mem _ (ih hx)

lemma strip_eq_self {l : List Char}
    (hh : ∀ x, l.head? = some x → isSpace x = false)
    (hl : ∀ x, l.getLast? = some x → isSpace x = false) : stripChars l = l := by
  unfold stripChars
  rw [dropWhile_eq_self_of_head hh]
  rw [dropWhile_eq_self_of_head (fun x hx => hl x (by rw [getLast?_eq_revHead]; exact hx))]
  exact List.reverse_reverse l

/-- Decomposition of the leading-white-space-free part of `d` into the fully
stripped core and the trailing white space. -/
lemma dropWhile_strip_decomp (d : List Char) :
    d.dropWhile isSpace =
      stripChars d ++ ((d.dropWhile isSpace).reverse.takeWhile isSpace).reverse := by
  unfold stripChars
  rw [← List.reverse_append, List.takeWhile_append_dropWhile, List.reverse_reverse]

lemma strip_trailing_all_space (d : List Char) :
    (((d.dropWhile isSpace).reverse.takeWhile isSpace).reverse).all isSpace = true := by
  rw [all_reverse_eq]
  exact takeWhile_all

lemma strip_getLast_not_space {d : List Char} :
    ∀ x, (stripChars d).getLast? = some x → isSpace x = false := by
  intro x hx
  unfold stripChars at hx
  rw [getLast?_eq_revHead, List.reverse_reverse] at hx
  exact dropWhile_head_false hx

lemma strip_head_not_space {d : List Char} :
    ∀ x, (stripChars d).head? = some x → isSpace x = false := by
  intro x hx
  have hne : stripChars d ≠ [] := by
    intro hnil
    rw [hnil] at hx
    exact absurd hx (by simp)
  have h1 : (d.dropWhile isSpace).head? = some x := by
    rw [dropWhile_strip_decomp d, head?_append_left hne]
    exact hx
  exact dropWhile_head_false h1

lemma mem_strip_subset {d : List Char} {x : Char} (h : x ∈ stripChars d) : x ∈ d := by
  unfold stripChars at h
  rw [List.mem_reverse] at h
  have h1 : x ∈ (d.dropWhile isSpace).reverse := (List.dropWhile_suffix isSpace).subset h
  rw [List.mem_reverse] at h1
  exact (List.dropWhile_suffix isSpace).subset h1

lemma strip_idem {d : List Char} : stripChars (stripChars d) = stripChars d :=
  strip_eq_self strip_head_not_space strip_getLast_not_space

set_option maxHeartbeats 2000000 in
lemma splitAll_cons_of_not_break {c : Char} {rest : List Char} (hc : isLineBreak c = false) :
    splitAll (c :: rest) =
      (match splitAll rest with | [] => [[c]] | l :: ls => (c :: l) :: ls) := by
  rw [splitAll.eq_def]
  split
  · rename_i heq
    exact absurd heq (by simp)
  · rename_i heq
    rw [List.cons.injEq] at heq
    exact absurd (by rw [heq.1] at hc; exact hc) (by decide)
  · rename_i c2 rest2 heq
    rw [List.cons.injEq] at heq
    obtain ⟨rfl, rfl⟩ := heq
    rw [if_neg (by simp [hc])]

lemma splitAll_no_break {l : List Char} (h : ∀ c ∈ l, isLineBreak c = false) :
    splitAll l = [l] := by
  induction l with
  | nil => rfl
  | cons c cs ih =>
    rw [splitAll_cons_of_not_break (h c (List.mem_cons_self _ _))]
    rw [ih (fun x hx => h x (List.mem_cons_of_mem _ hx))]

lemma splitlines_single {l : List Char} (hne : l ≠ [])
    (h : ∀ c ∈ l, isLineBreak c = false) : splitlines l = [l] := by
  obtain ⟨c, cs, rfl⟩ := exists_cons_of_ne_nil hne
  unfold splitlines
  rw [splitAll_no_break h]
  rw [if_neg]
  simp

set_option maxHeartbeats 2000000 in
lemma splitAll_cr_not_lf {c2 : Char} {rest2 : List Char} (hc2 : c2 ≠ '\n') :
    splitAll ('\r' :: c2 :: rest2) = [] :: splitAll (c2 :: rest2) := by
  rw [splitAll.eq_def]
  split
  · rename_i heq
    exact absurd heq (by simp)
  · rename_i heq
    simp only [List.cons.injEq] at heq
    exact absurd heq.2.1 hc2
  · rename_i c3 rest3 heq
    simp only [List.cons.injEq] at heq
    obtain ⟨rfl, rfl, rfl⟩ := heq
    rw [if_pos (by decide)]

set_option maxHeartbeats 2000000 in
lemma splitAll_break_not_cr {c : Char} {rest : List Char} (hc : isLineBreak c = true)
    (hcr : c ≠ '\r') : splitAll (c :: rest) = [] :: splitAll rest := by
  rw [splitAll.eq_def]
  split
  · rename_i heq
    exact absurd heq (by simp)
  · rename_i heq
    simp only [List.cons.injEq] at heq
    exact absurd heq.1 hcr
  · rename_i c3 rest3 heq
    simp only [List.cons.injEq] at heq
    obtain ⟨rfl, rfl⟩ := heq
    rw [if_pos hc]

/-- Every line produced by `splitAll` is free of line-boundary characters. -/
lemma splitAll_mem_no_break :
    ∀ (n : Nat) (s : List Char), s.length ≤ n →
      ∀ l ∈ splitAll s, ∀ c ∈ l, isLineBreak c = false := by
  intro n
  induction n with
  | zero =>
    intro s hs l hl c hc
    have hz : s = [] := by
      cases s with
      | nil => rfl
      | cons a b => exact absurd hs (by simp)
    subst hz
    have hl' : l ∈ [([] : List Char)] := hl
    have : l = [] := by simpa using hl'
    subst this
    exact absurd hc (List.not_mem_nil c)
  | succ n ih =>
    intro s hs l hl c hc
    cases s with
    | nil =>
      have hl' : l ∈ [([] : List Char)] := hl
      have : l = [] := by simpa using hl'
      subst this
      exact absurd hc (List.not_mem_nil c)
    | cons c0 rest =>
      have hsr : rest.length ≤ n := by simp [List.length_cons] at hs; omega
      by_cases hb : isLineBreak c0 = true
      · by_cases hcr : c0 = '\r'
        · subst hcr
          cases rest with
          | nil =>
            have hl' : l ∈ [([] : List Char), []] := hl
            have : l = [] := by simpa using hl'
            subst this
            exact absurd hc (List.not_mem_nil c)
          | cons c2 rest2 =>
            by_cases hc2 : c2 = '\n'
            · subst hc2
              have hsp : splitAll ('\r' :: '\n' :: rest2) = [] :: splitAll rest2 := rfl
              rw [hsp] at hl
              rcases List.mem_cons.mp hl with hl | hl
              · subst hl
                exact absurd hc (List.not_mem_nil c)
              · have hr2 : rest2.length ≤ n := by simp [List.length_cons] at hs; omega
                exact ih rest2 hr2 l hl c hc
            · rw [splitAll_cr_not_lf hc2] at hl
              rcases List.mem_cons.mp hl with hl | hl
              · subst hl
                exact absurd hc (List.not_mem_nil c)
              · exact ih (c2 :: rest2) hsr l hl c hc
        · rw [splitAll_break_not_cr hb hcr] at hl
          rcases List.mem_cons.mp hl with hl | hl
          · subst hl
            exact absurd hc (List.not_mem_nil c)
          · exact ih rest hsr l hl c hc
      · have hb' : isLineBreak c0 = false := by simpa using hb
        rw [splitAll_cons_of_not_break hb'] at hl
        rcases hsp : splitAll rest with _ | ⟨l0, ls⟩
        · rw [hsp] at hl
          have : l = [c0] := by simpa using hl
          subst this
          have : c = c0 := by simpa using hc
          rw [this]
          exact hb'
        · rw [hsp] at hl
          rcases List.mem_cons.mp hl with hl | hl
          · subst hl
            rcases List.mem_cons.mp hc with rfl | hcm
            · exact hb'
            · exact ih rest hsr l0 (by rw [hsp]; exact List.mem_cons_self _ _) c hcm
          · exact ih rest hsr l (by rw [hsp]; exact List.mem_cons_of_mem _ hl) c hc

/-- Every line produced by `splitlines` is free of line-boundary characters. -/
lemma splitlines_mem_no_break {s : List Char} :
    ∀ l ∈ splitlines s, ∀ c ∈ l, isLineBreak c = false := by
  intro l hl c hc
  have hsub : l ∈ splitAll s := by
    unfold splitlines at hl
    cases s with
    | nil => exact absurd hl (by simp)
    | cons c0 rest =>
      by_cases hg : (splitAll (c0 :: rest)).getLast? = some ([] : List Char)
      · rw [if_pos hg] at hl
        exact (List.dropLast_sublist _).subset hl
      · rw [if_neg hg] at hl
        exact hl
  exact splitAll_mem_no_break s.length s (Nat.le_refl _) l hsub c hc

/-! ## Soundness of the matcher spine -/

lemma closeParen_sound {α : Type} {k : List Char → Option α} {r : List Char} {v : α}
    (h : closeParen k r = some v) : ∃ s3, r = ')' :: s3 ∧ k s3 = some v := by
  unfold closeParen at h
  split at h
  · rename_i s3
    exact ⟨s3, rfl, h⟩
  · exact absurd h (by simp)

lemma colonThen_sound {α : Type} {k : List Char → Option α} {r : List Char} {v : α}
    (h : colonThen k r = some v) : ∃ s3, r = ':' :: s3 ∧ k s3 = some v := by
  unfold colonThen at h
  split at h
  · rename_i s3
    exact ⟨s3, rfl, h⟩
  · exact absurd h (by simp)

lemma scopeArm_sound {α : Type} {k : List Char → Option α} {s : List Char} {v : α}
    (h : scopeArm k s = some v) : ∃ s3, k s3 = some v := by
  unfold scopeArm at h
  split at h
  · obtain ⟨a, b, -, -, hcp⟩ := greedyManyO_sound h
    obtain ⟨s3, -, hk⟩ := closeParen_sound hcp
    exact ⟨s3, hk⟩
  · exact absurd h (by simp)

lemma scopeOptO_sound {α : Type} {k : List Char → Option α} {s : List Char} {v : α}
    (h : scopeOptO s k = some v) : ∃ s3, k s3 = some v := by
  unfold scopeOptO at h
  rcases orElse_eq_some_cases h with h1 | ⟨-, h1⟩
  · exact scopeArm_sound h1
  · exact ⟨s, h1⟩

lemma descSearch_sound {ty : List Char} {s : List Char} {v : List Char × List Char}
    (h : descSearch ty s = some v) :
    ∃ cap rest, v = (ty, cap) ∧ s = cap ++ rest ∧ cap ≠ [] ∧
      cap.all isDotCh = true ∧ tailAccept rest = true := by
  unfold descSearch at h
  obtain ⟨a, b, rfl, hane, ha, hk⟩ := lazyPlusCapO_sound h
  have hk' : (if tailAccept b = true then some (ty, a) else none) = some v := hk
  by_cases ht : tailAccept b = true
  · rw [if_pos ht] at hk'
    have hv : (ty, a) = v := by simpa using hk'
    exact ⟨a, b, hv.symm, rfl, hane, ha, ht⟩
  · rw [if_neg ht] at hk'
    exact absurd hk' (by simp)

lemma typeGroupO_sound {α : Type} {s : List Char} {k : List Char → List Char → Option α}
    {v : α} (h : typeGroupO s k = some v) : ∃ ty s4, k ty s4 = some v := by
  unfold typeGroupO at h
  obtain ⟨ty0, s1, -, -, -, hsc⟩ := greedyPlusCapO_sound h
  obtain ⟨s3, hct⟩ := scopeOptO_sound hsc
  obtain ⟨s4, -, hg⟩ := colonThen_sound hct
  obtain ⟨a, b, -, -, hk⟩ := greedyManyO_sound hg
  exact ⟨ty0, b, hk⟩

/-- Any `PR_RE` match starts with `*` plus a white-space character, and the
captured description consists of `.`-matchable (non-newline) characters. -/
lemma prMatch_sound {l ty desc : List Char} (h : prMatch l = some (ty, desc)) :
    desc.all isDotCh = true ∧ ∃ c rest, l = '*' :: c :: rest ∧ isSpace c = true := by
  cases l with
  | nil =>
    have hn : prMatch [] = none := rfl
    rw [hn] at h
    exact absurd h (by simp)
  | cons c0 cs =>
    rw [prMatch.eq_def] at h
    split at h
    · rename_i rest1 heq1
      obtain ⟨a, b, heq, hane, haall, hk⟩ := greedyPlusO_sound h
      obtain ⟨c, a', rfl⟩ := exists_cons_of_ne_nil hane
      rw [List.all_cons, Bool.and_eq_true] at haall
      have hdesc : desc.all isDotCh = true := by
        rcases orElse_eq_some_cases hk with h1 | ⟨-, h1⟩
        · obtain ⟨ty0, s4, hds⟩ := typeGroupO_sound h1
          obtain ⟨cap, rest2, hv, -, -, hcap, -⟩ := descSearch_sound hds
          rw [Prod.mk.injEq] at hv
          rw [hv.2]
          exact hcap
        · obtain ⟨cap, rest2, hv, -, -, hcap, -⟩ := descSearch_sound h1
          rw [Prod.mk.injEq] at hv
          rw [hv.2]
          exact hcap
      exact ⟨hdesc, c, a' ++ b, by rw [heq1, heq]; rfl, haall.1⟩
    · exact absurd h (by simp)

lemma sArmO_sound {α : Type} {k : List Char → List Char → Option α} {s1 : List Char} {v : α}
    (h : sArmO k s1 = some v) :
    ∃ s3, s1 = 's' :: ([':', '/', '/'] ++ s3) ∧ k https8 s3 = some v := by
  unfold sArmO at h
  split at h
  · rename_i s2
    obtain ⟨s3, rfl, hk⟩ := litO_sound h
    exact ⟨s3, rfl, hk⟩
  · exact absurd h (by simp)

/-- A `CHANGELOG_RE` capture is protocol plus a run of non-white-space. -/
lemma changelogMatch_sound {s u : List Char} (h : changelogMatch s = some u) :
    u.all isNonSpace = true := by
  unfold changelogMatch at h
  obtain ⟨s1, -, h1⟩ := litO_sound h
  obtain ⟨a, b, -, -, h2⟩ := greedyManyO_sound h1
  unfold httpCapO at h2
  obtain ⟨s2, -, h3⟩ := litO_sound h2
  rcases orElse_eq_some_cases h3 with h4 | ⟨-, h4⟩
  · obtain ⟨s3, -, h5⟩ := sArmO_sound h4
    obtain ⟨run, rest, -, -, hrall, hu⟩ := greedyPlusCapO_sound h5
    have hu' : https8 ++ run = u := by simpa using hu
    rw [← hu']
    exact all_append_tt (by decide) hrall
  · obtain ⟨s3, -, h5⟩ := litO_sound h4
    obtain ⟨run, rest, -, -, hrall, hu⟩ := greedyPlusCapO_sound h5
    have hu' : ['h', 't', 't', 'p', ':', '/', '/'] ++ run = u := by simpa using hu
    rw [← hu']
    exact all_append_tt (by decide) hrall

lemma changelogMatch_eq_none_of_not_prefix {s : List Char} (h : ¬ clLit <+: s) :
    changelogMatch s = none := by
  unfold changelogMatch litO
  rw [if_neg (fun hp => h (List.isPrefixOf_iff_prefix.mp hp))]

lemma changelogMatch_star_space {c : Char} {rest : List Char} (hc : isSpace c = true) :
    changelogMatch ('*' :: c :: rest) = none := by
  apply changelogMatch_eq_none_of_not_prefix
  intro hp
  unfold clLit at hp
  rw [List.cons_prefix_cons] at hp
  obtain ⟨-, hp⟩ := hp
  rw [List.cons_prefix_cons] at hp
  obtain ⟨h1, -⟩ := hp
  rw [← h1] at hc
  exact absurd hc (by decide)

/-! ## `parseLine` evaluation -/

lemma parseLine_changelog {st : ParseState} {l u : List Char}
    (h : changelogMatch (stripChars l) = some u) :
    parseLine st l = { st with changelog := some u } := by
  unfold parseLine
  rw [h]

lemma parseLine_skip {st : ParseState} {l : List Char}
    (hc : changelogMatch (stripChars l) = none) (hp : prMatch (stripChars l) = none) :
    parseLine st l = st := by
  unfold parseLine
  rw [hc, hp]

lemma parseLine_pr {st : ParseState} {l ty desc : List Char}
    (hc : changelogMatch (stripChars l) = none)
    (hp : prMatch (stripChars l) = some (ty, desc)) :
    parseLine st l =
      if ty ∈ SKIP_TYPES then st
      else { st with
        sections :=
          setdefaultAppend st.sections ((SECTIONS.lookup ty).getD otherH) (stripChars desc) } := by
  unfold parseLine
  rw [hc, hp]

lemma parse_notes_single {l : List Char} (hne : l ≠ [])
    (hnb : ∀ c ∈ l, isLineBreak c = false) :
    parse_notes l = parseLine { sections := [], changelog := none } l := by
  unfold parse_notes
  rw [splitlines_single hne hnb]
  rfl

/-! ## Evaluation wrappers with an explicit split equation -/

lemma greedyPlusO_eval2 {α : Type} {p : Char → Bool} {k : List Char → Option α} {v : α}
    {s xs ys : List Char} (hs : s = xs ++ ys) (hne : xs ≠ []) (ha : xs.all p = true)
    (hb : ∀ x, ys.head? = some x → p x = false) (hk : k ys = some v) :
    greedyPlusO p s k = some v := by
  rw [hs]
  exact greedyPlusO_eval hne ha hb hk

lemma greedyManyO_eval2 {α : Type} {p : Char → Bool} {k : List Char → Option α} {v : α}
    {s xs ys : List Char} (hs : s = xs ++ ys) (ha : xs.all p = true)
    (hb : ∀ x, ys.head? = some x → p x = false) (hk : k ys = some v) :
    greedyManyO p s k = some v := by
  rw [hs]
  exact greedyManyO_eval ha hb hk

lemma greedyPlusCapO_eval2 {α : Type} {p : Char → Bool} {v : α}
    {s xs ys : List Char} {k : List Char → List Char → Option α}
    (hs : s = xs ++ ys) (hne : xs ≠ []) (ha : xs.all p = true)
    (hb : ∀ x, ys.head? = some x → p x = false) (hk : k xs ys = some v) :
    greedyPlusCapO p s k = some v := by
  rw [hs]
  exact greedyPlusCapO_eval hne ha hb hk

lemma lazyPlusCapO_eval2 {α : Type} {p : Char → Bool} {v : α}
    {s xs ys : List Char} {k : List Char → List Char → Option α}
    (hs : s = xs ++ ys) (hne : xs ≠ []) (ha : xs.all p = true)
    (hmin : ∀ pre mid, xs = pre ++ mid → pre ≠ [] → mid ≠ [] → k pre (mid ++ ys) = none)
    (hk : k xs ys = some v) :
    lazyPlusCapO p s k = some v := by
  rw [hs]
  exact lazyPlusCapO_eval hne ha hmin hk

lemma exists_getLast?_of_ne_nil {l : List Char} (h : l ≠ []) :
    ∃ x, l.getLast? = some x := by
  rw [getLast?_eq_revHead]
  obtain ⟨c, cs, hc⟩ := exists_cons_of_ne_nil (fun hr => h (List.reverse_eq_nil_iff.mp hr))
  exact ⟨c, by rw [hc]; rfl⟩

lemma byAtLit_no_break : ∀ c ∈ byAtLit, isLineBreak c = false := by decide

lemma inSpLit_no_break : ∀ c ∈ inSpLit, isLineBreak c = false := by decide

/-! ## `PR_RE` on a canonical generated line -/

/-- The backtracking search on `* t: d by @u in w`: the greedy prefix takes the
type `t`, the lazy description settles on `strip d`, and the two optional
trailing groups absorb the attribution and the link. -/
lemma prMatch_prLine {t d u w : List Char}
    (htne : t ≠ []) (htl : t.all isLowerAlpha = true)
    (hd : stripChars d ≠ []) (hdl : ∀ c ∈ d, isLineBreak c = false)
    (hu : u ≠ []) (huw : u.all isWordDash = true) (hw : UrlOkP w) :
    prMatch ('*' :: ' ' :: (t ++ (':' :: ' ' ::
        (d ++ (byAtLit ++ (u ++ (inSpLit ++ w))))))) =
      some (t, stripChars d) := by
  obtain ⟨t0, tt, htE⟩ := exists_cons_of_ne_nil htne
  have hd1ne : d.dropWhile isSpace ≠ [] := by
    intro hnil
    rw [dropWhile_strip_decomp d] at hnil
    obtain ⟨h1, -⟩ := List.append_eq_nil.mp hnil
    exact hd h1
  have hcore_dot : (stripChars d).all isDotCh = true := by
    rw [List.all_eq_true]
    intro x hx
    exact dot_of_not_lineBreak (hdl x (mem_strip_subset hx))
  show greedyPlusO isSpace (' ' :: (t ++ (':' :: ' ' ::
      (d ++ (byAtLit ++ (u ++ (inSpLit ++ w)))))))
      (fun s2 => (typeGroupO s2 fun ty s3 => descSearch ty s3) <|> descSearch [] s2) =
    some (t, stripChars d)
  apply greedyPlusO_eval2 (show ' ' :: (t ++ (':' :: ' ' ::
      (d ++ (byAtLit ++ (u ++ (inSpLit ++ w)))))) = [' '] ++ (t ++ (':' :: ' ' ::
      (d ++ (byAtLit ++ (u ++ (inSpLit ++ w)))))) from rfl) (by simp) (by decide)
  · intro x hx
    rw [htE] at hx
    have hx0 : t0 = x := by simpa using hx
    have ht0 : isLowerAlpha t0 = true := by
      rw [htE, List.all_cons, Bool.and_eq_true] at htl
      exact htl.1
    rw [← hx0]
    exact lower_not_space ht0
  show ((typeGroupO (t ++ (':' :: ' ' :: (d ++ (byAtLit ++ (u ++ (inSpLit ++ w))))))
        fun ty s3 => descSearch ty s3) <|>
      descSearch [] (t ++ (':' :: ' ' :: (d ++ (byAtLit ++ (u ++ (inSpLit ++ w))))))) =
    some (t, stripChars d)
  have hTG : (typeGroupO (t ++ (':' :: ' ' :: (d ++ (byAtLit ++ (u ++ (inSpLit ++ w))))))
      fun ty s3 => descSearch ty s3) = some (t, stripChars d) := by
    unfold typeGroupO
    apply greedyPlusCapO_eval2 rfl htne htl (head_cons_false (by decide))
    show greedyManyO isSpace (' ' :: (d ++ (byAtLit ++ (u ++ (inSpLit ++ w)))))
        (fun s4 => descSearch t s4) = some (t, stripChars d)
    have hsplit : ' ' :: (d ++ (byAtLit ++ (u ++ (inSpLit ++ w)))) =
        (' ' :: d.takeWhile isSpace) ++
          ((d.dropWhile isSpace) ++ (byAtLit ++ (u ++ (inSpLit ++ w)))) := by
      conv_rhs => rw [List.cons_append, ← List.append_assoc, List.takeWhile_append_dropWhile]
    apply greedyManyO_eval2 hsplit
      (by rw [List.all_cons, Bool.and_eq_true]; exact ⟨by decide, takeWhile_all⟩)
    · intro x hx
      rw [head?_append_left hd1ne] at hx
      exact dropWhile_head_false hx
    show descSearch t ((d.dropWhile isSpace) ++ (byAtLit ++ (u ++ (inSpLit ++ w)))) =
      some (t, stripChars d)
    have hsplit2 : (d.dropWhile isSpace) ++ (byAtLit ++ (u ++ (inSpLit ++ w))) =
        stripChars d ++
          ((((d.dropWhile isSpace).reverse.takeWhile isSpace).reverse) ++
            (byAtLit ++ (u ++ (inSpLit ++ w)))) := by
      conv_rhs => rw [← List.append_assoc]
      rw [← dropWhile_strip_decomp]
    unfold descSearch
    apply lazyPlusCapO_eval2 hsplit2 hd hcore_dot
    · intro pre mid hpre hprene hmidne
      have htf : tailAccept (mid ++
          ((((d.dropWhile isSpace).reverse.takeWhile isSpace).reverse) ++
            (byAtLit ++ (u ++ (inSpLit ++ w))))) = false := by
        cases htt : tailAccept (mid ++
            ((((d.dropWhile isSpace).reverse.takeWhile isSpace).reverse) ++
              (byAtLit ++ (u ++ (inSpLit ++ w))))) with
        | false => rfl
        | true =>
          exfalso
          rw [← List.append_assoc] at htt
          have hms : (mid ++
              (((d.dropWhile isSpace).reverse.takeWhile isSpace).reverse)).all isSpace =
              true := tailAccept_elim hu huw hw htt
          rw [List.all_append, Bool.and_eq_true] at hms
          obtain ⟨x, hx⟩ := exists_getLast?_of_ne_nil hmidne
          have hx_space : isSpace x = true :=
            List.all_eq_true.mp hms.1 x (getLast?_mem_self hx)
          have hx_core : (stripChars d).getLast? = some x := by
            rw [hpre, List.getLast?_append_of_ne_nil _ hmidne]
            exact hx
          rw [strip_getLast_not_space x hx_core] at hx_space
          exact absurd hx_space (by decide)
      show (if tailAccept (mid ++
          ((((d.dropWhile isSpace).reverse.takeWhile isSpace).reverse) ++
            (byAtLit ++ (u ++ (inSpLit ++ w))))) = true
          then some (t, pre) else none) = none
      rw [htf]
      simp
    · show (if tailAccept
          ((((d.dropWhile isSpace).reverse.takeWhile isSpace).reverse) ++
            (byAtLit ++ (u ++ (inSpLit ++ w)))) = true
          then some (t, stripChars d) else none) = some (t, stripChars d)
      rw [tailAccept_intro (strip_trailing_all_space d) hu huw hw]
      simp
  rw [hTG]
  rfl

/-- The line `* t: d by @u in w`. -/
def prLine (t d u w : List Char) : List Char :=
  '*' :: ' ' :: (t ++ (':' :: ' ' :: (d ++ (byAtLit ++ (u ++ (inSpLit ++ w))))))

lemma prLine_spelling :
    prLine "feat".toList "add X".toList "alice".toList "https://g".toList =
      "* feat: add X by @alice in https://g".toList := by decide

lemma prLine_no_break {t d u w : List Char} (htl : t.all isLowerAlpha = true)
    (hdl : ∀ c ∈ d, isLineBreak c = false) (huw : u.all isWordDash = true)
    (hwns : w.all isNonSpace = true) :
    ∀ c ∈ prLine t d u w, isLineBreak c = false := by
  intro c hc
  unfold prLine at hc
  simp only [List.mem_cons, List.mem_append] at hc
  rcases hc with rfl | rfl | hc | rfl | rfl | hc | hc | hc | hc | hc
  · decide
  · decide
  · exact lineBreak_false_of_not_space (lower_not_space (List.all_eq_true.mp htl c hc))
  · decide
  · decide
  · exact hdl c hc
  · exact byAtLit_no_break c hc
  · exact lineBreak_false_of_not_space (wd_not_space (List.all_eq_true.mp huw c hc))
  · exact inSpLit_no_break c hc
  · exact lineBreak_false_of_not_space (nonSpace_not_space (List.all_eq_true.mp hwns c hc))

lemma prLine_strip {t d u w : List Char} (hw : UrlOkP w) :
    stripChars (prLine t d u w) = prLine t d u w := by
  apply strip_eq_self
  · intro x hx
    have hsx : '*' = x := by simpa [prLine] using hx
    rw [← hsx]
    decide
  · intro x hx
    have hwne := urlOkP_ne_nil hw
    have hform : prLine t d u w =
        ('*' :: ' ' :: (t ++ (':' :: ' ' :: (d ++ (byAtLit ++ (u ++ inSpLit)))))) ++ w := by
      simp [prLine, List.append_assoc, List.cons_append]
    rw [hform, List.getLast?_append_of_ne_nil _ hwne] at hx
    exact nonSpace_not_space
      (List.all_eq_true.mp (urlOkP_nonSpace hw) x (getLast?_mem_self hx))

lemma parse_prLine {t d u w : List Char}
    (htne : t ≠ []) (htl : t.all isLowerAlpha = true)
    (hd : stripChars d ≠ []) (hdl : ∀ c ∈ d, isLineBreak c = false)
    (hu : u ≠ []) (huw : u.all isWordDash = true) (hw : UrlOkP w) :
    parse_notes (prLine t d u w) =
      { sections :=
          if t ∈ SKIP_TYPES then []
          else [((SECTIONS.lookup t).getD otherH, [stripChars d])]
        changelog := none } := by
  have hnb := prLine_no_break htl hdl huw (urlOkP_nonSpace hw)
  rw [parse_notes_single (by simp [prLine]) hnb]
  have hstrip : stripChars (prLine t d u w) = prLine t d u w := prLine_strip hw
  have hc : changelogMatch (stripChars (prLine t d u w)) = none := by
    rw [hstrip]
    exact changelogMatch_star_space (by decide)
  have hp : prMatch (stripChars (prLine t d u w)) = some (t, stripChars d) := by
    rw [hstrip]
    exact prMatch_prLine htne htl hd hdl hu huw hw
  rw [parseLine_pr hc hp]
  by_cases hskip : t ∈ SKIP_TYPES
  · rw [if_pos hskip, if_pos hskip]
  · rw [if_neg hskip, if_neg hskip, strip_idem]
    rfl

/-- C1 (amended): on a generated line `* t: d by @u in w` with `t` a nonempty
lowercase word, `d` a single-line description with nonempty trimmed content,
`u` a username over letters/digits/hyphen/underscore and `w` an `http(s)` URL
without white space, the grammar extracts exactly the type `t` and the
description `strip d` — both trailing groups stripped — and, provided `t` is
not in the skip set, the parser stores exactly that one entry under the
heading selected by `t` (a skip-set `t` stores nothing, per C2). -/
theorem claim_c1 (t d u w : List Char)
    (htne : t ≠ []) (htl : t.all isLowerAlpha = true)
    (hd : stripChars d ≠ []) (hdl : ∀ c ∈ d, isLineBreak c = false)
    (hu : u ≠ []) (huw : u.all isWordDash = true) (hw : UrlOkP w) :
    prMatch (prLine t d u w) = some (t, stripChars d) ∧
    parse_notes (prLine t d u w) =
      { sections :=
          if t ∈ SKIP_TYPES then []
          else [((SECTIONS.lookup t).getD otherH, [stripChars d])]
        changelog := none } :=
  ⟨prMatch_prLine htne htl hd hdl hu huw hw,
    parse_prLine htne htl hd hdl hu huw hw⟩

/-- C1 counterexample to the claim as frozen: for the skip-set type
`t = "chore"` (a lowercase type word) the line `* chore: bump deps by @bob in
https://x` stores no entry at all, so parsing does not yield exactly one
stored entry with description `bump deps`. -/
theorem claim_c1_counterexample :
    parse_notes (prLine "chore".toList "bump deps".toList "bob".toList
        "https://x".toList) =
      { sections := [], changelog := none } := by decide

/-- C1 witness: concrete instance of `claim_c1`. -/
theorem claim_c1_witness :
    prMatch (prLine "feat".toList "add X".toList "alice".toList "https://g".toList) =
      some ("feat".toList, "add X".toList) ∧
    parse_notes (prLine "feat".toList "add X".toList "alice".toList "https://g".toList) =
      { sections := [("What's New".toList, ["add X".toList])], changelog := none } := by
  have h := claim_c1 "feat".toList "add X".toList "alice".toList "https://g".toList
    (by decide) (by decide) (by decide) (by decide) (by decide) (by decide)
    ⟨"g".toList, Or.inr (by decide), by decide, by decide⟩
  exact ⟨h.1, h.2⟩

/-! ## Empty-description bullet lines (C7) -/

lemma dropWhile_append_all {p : Char → Bool} {as bs : List Char} (ha : as.all p = true)
    (hb : ∀ x, bs.head? = some x → p x = false) : (as ++ bs).dropWhile p = bs := by
  induction as with
  | nil => exact dropWhile_eq_self_of_head hb
  | cons c cs ih =>
    rw [List.all_cons, Bool.and_eq_true] at ha
    rw [List.cons_append, List.dropWhile_cons, if_pos ha.1]
    exact ih ha.2

lemma strip_clean_append_space {l0 ws : List Char} (hne : l0 ≠ [])
    (hh : ∀ x, l0.head? = some x → isSpace x = false)
    (hlast : ∀ x, l0.getLast? = some x → isSpace x = false)
    (hws : ws.all isSpace = true) : stripChars (l0 ++ ws) = l0 := by
  have h1 : (l0 ++ ws).dropWhile isSpace = l0 ++ ws :=
    dropWhile_eq_self_of_head
      (fun x hx => hh x (by rw [head?_append_left hne] at hx; exact hx))
  unfold stripChars
  rw [h1, List.reverse_append, dropWhile_append_all (by rw [all_reverse_eq]; exact hws)
    (fun x hx => hlast x (by rw [getLast?_eq_revHead]; exact hx)), List.reverse_reverse]

lemma scopeArm_ne {α : Type} {k : List Char → Option α} {c : Char} {X : List Char}
    (hc : c ≠ '(') : scopeArm k (c :: X) = none := by
  unfold scopeArm
  split
  · rename_i s1 heq
    rw [List.cons.injEq] at heq
    exact absurd heq.1 hc
  · rfl

lemma colonThen_ne {α : Type} {k : List Char → Option α} {c : Char} {X : List Char}
    (hc : c ≠ ':') : colonThen k (c :: X) = none := by
  unfold colonThen
  split
  · rename_i s3 heq
    rw [List.cons.injEq] at heq
    exact absurd heq.1 hc
  · rfl

/-- On `* t:` (nothing after the colon) the type group cannot match — the
description would be empty — so the grammar falls back to an empty type and the
whole `t:` text becomes the description. -/
lemma prMatch_colon_line {t : List Char} (htne : t ≠ []) (htl : t.all isLowerAlpha = true) :
    prMatch ('*' :: ' ' :: (t ++ [':'])) = some ([], t ++ [':']) := by
  obtain ⟨t0, tt, htE⟩ := exists_cons_of_ne_nil htne
  show greedyPlusO isSpace (' ' :: (t ++ [':']))
      (fun s2 => (typeGroupO s2 fun ty s3 => descSearch ty s3) <|> descSearch [] s2) =
    some ([], t ++ [':'])
  apply greedyPlusO_eval2
    (show ' ' :: (t ++ [':']) = [' '] ++ (t ++ [':']) from rfl) (by simp) (by decide)
  · intro x hx
    rw [htE] at hx
    have hx0 : t0 = x := by simpa using hx
    have ht0 : isLowerAlpha t0 = true := by
      rw [htE, List.all_cons, Bool.and_eq_true] at htl
      exact htl.1
    rw [← hx0]
    exact lower_not_space ht0
  show ((typeGroupO (t ++ [':']) fun ty s3 => descSearch ty s3) <|>
      descSearch [] (t ++ [':'])) = some ([], t ++ [':'])
  have hTG : (typeGroupO (t ++ [':']) fun ty s3 => descSearch ty s3) = none := by
    unfold typeGroupO
    apply greedyPlusCapO_none
    intro cap rest hre hcapne hcap
    have hsplit : ∃ tSuf, t = cap ++ tSuf ∧ rest = tSuf ++ [':'] := by
      rcases List.append_eq_append_iff.mp hre with ⟨a', ha1, ha2⟩ | ⟨c', hc1, hc2⟩
      · cases a' with
        | nil =>
          rw [List.append_nil] at ha1
          rw [List.nil_append] at ha2
          exact ⟨[], by rw [ha1, List.append_nil], by rw [← ha2]; rfl⟩
        | cons a0 a't =>
          exfalso
          have h1 : a0 = ':' ∧ a't ++ rest = [] := by
            rw [List.cons_append] at ha2
            have h2 := ha2.symm
            rw [show ([':'] : List Char) = ':' :: [] from rfl, List.cons.injEq] at h2
            exact ⟨h2.1, h2.2⟩
          obtain ⟨rfl, h2⟩ := h1
          have : ':' ∈ cap := by
            rw [ha1]
            exact List.mem_append_right _ (List.mem_cons_self _ _)
          have := List.all_eq_true.mp hcap ':' this
          exact absurd this (by decide)
      · exact ⟨c', hc1, hc2⟩
    obtain ⟨tSuf, htS, rfl⟩ := hsplit
    cases tSuf with
    | nil => rfl
    | cons c tSuf2 =>
      have hcl : isLowerAlpha c = true := by
        refine List.all_eq_true.mp htl c ?_
        rw [htS]
        exact List.mem_append_right _ (List.mem_cons_self _ _)
      have hc1 : c ≠ '(' := by
        intro h
        rw [h] at hcl
        exact absurd hcl (by decide)
      have hc2 : c ≠ ':' := by
        intro h
        rw [h] at hcl
        exact absurd hcl (by decide)
      show scopeOptO ((c :: tSuf2) ++ [':']) _ = none
      unfold scopeOptO
      rw [List.cons_append, scopeArm_ne hc1, none_orElse_eq, colonThen_ne hc2]
  rw [hTG, none_orElse_eq]
  unfold descSearch
  apply lazyPlusCapO_eval2 (show t ++ [':'] = (t ++ [':']) ++ [] from by simp)
    (by simp) ?_ ?_ ?_
  · rw [List.all_append, Bool.and_eq_true]
    constructor
    · rw [List.all_eq_true]
      intro x hx
      exact dot_of_not_lineBreak
        (lineBreak_false_of_not_space (lower_not_space (List.all_eq_true.mp htl x hx)))
    · decide
  · intro pre mid hpm hprene hmidne
    have hmem : ∀ x ∈ mid, x ∈ t ∨ x = ':' := by
      intro x hx
      have : x ∈ t ++ [':'] := by
        rw [hpm]
        exact List.mem_append_right _ hx
      rcases List.mem_append.mp this with h | h
      · exact Or.inl h
      · exact Or.inr (by simpa using h)
    have htf : tailAccept (mid ++ []) = false := by
      rw [List.append_nil]
      cases htt : tailAccept mid with
      | false => rfl
      | true =>
        exfalso
        rcases tailAccept_coarse htt with hsp | hat | hsl
        · obtain ⟨m0, mt, rfl⟩ := exists_cons_of_ne_nil hmidne
          have h1 : isSpace m0 = true := by
            rw [List.all_cons, Bool.and_eq_true] at hsp
            exact hsp.1
          rcases hmem m0 (List.mem_cons_self _ _) with h | rfl
          · rw [lower_not_space (List.all_eq_true.mp htl m0 h)] at h1
            exact absurd h1 (by decide)
          · exact absurd h1 (by decide)
        · rcases hmem '@' hat with h | h
          · have := List.all_eq_true.mp htl '@' h
            exact absurd this (by decide)
          · exact absurd h (by decide)
        · rcases hmem '/' hsl with h | h
          · have := List.all_eq_true.mp htl '/' h
            exact absurd this (by decide)
          · exact absurd h (by decide)
    show (if tailAccept (mid ++ []) = true then some (([] : List Char), pre) else none) =
      none
    rw [htf]
    simp
  · show (if tailAccept [] = true then some (([] : List Char), t ++ [':']) else none) =
      some ([], t ++ [':'])
    rw [if_pos (by decide)]

/-- C7 (amended): a bullet line `* t:` followed only by white space still
yields an entry, but the type group fails to match (the description may not be
empty), so the stored entry is the whole text `t:` filed under `Other`, not an
empty entry under the heading of `t`. -/
theorem claim_c7 (t ws : List Char)
    (htne : t ≠ []) (htl : t.all isLowerAlpha = true)
    (hws : ws.all isSpace = true) (hwsnb : ∀ c ∈ ws, isLineBreak c = false) :
    parse_notes ('*' :: ' ' :: (t ++ (':' :: ws))) =
      { sections := [(otherH, [t ++ [':']])], changelog := none } := by
  have hform : '*' :: ' ' :: (t ++ (':' :: ws)) = ('*' :: ' ' :: (t ++ [':'])) ++ ws := by
    simp [List.cons_append, List.append_assoc]
  rw [hform]
  have hl0h : ∀ x, ('*' :: ' ' :: (t ++ [':'])).head? = some x → isSpace x = false := by
    intro x hx
    have : '*' = x := by simpa using hx
    rw [← this]
    decide
  have hl0l : ∀ x, ('*' :: ' ' :: (t ++ [':'])).getLast? = some x → isSpace x = false := by
    intro x hx
    have hform2 : '*' :: ' ' :: (t ++ [':']) = ('*' :: ' ' :: t) ++ [':'] := by
      simp [List.cons_append, List.append_assoc]
    rw [hform2, List.getLast?_append_of_ne_nil _ (by simp)] at hx
    have : ':' = x := by simpa using hx
    rw [← this]
    decide
  have hnb : ∀ c ∈ ('*' :: ' ' :: (t ++ [':'])) ++ ws, isLineBreak c = false := by
    intro c hc
    simp only [List.mem_append, List.mem_cons, List.mem_singleton] at hc
    rcases hc with (rfl | rfl | hc | rfl | hcn) | hc
    · decide
    · decide
    · exact lineBreak_false_of_not_space (lower_not_space (List.all_eq_true.mp htl c hc))
    · decide
    · exact absurd hcn (List.not_mem_nil c)
    · exact hwsnb c hc
  rw [parse_notes_single (by simp) hnb]
  have hstrip : stripChars (('*' :: ' ' :: (t ++ [':'])) ++ ws) =
      '*' :: ' ' :: (t ++ [':']) :=
    strip_clean_append_space (by simp) hl0h hl0l hws
  have hc : changelogMatch (stripChars (('*' :: ' ' :: (t ++ [':'])) ++ ws)) = none := by
    rw [hstrip]
    exact changelogMatch_star_space (by decide)
  have hp : prMatch (stripChars (('*' :: ' ' :: (t ++ [':'])) ++ ws)) =
      some ([], t ++ [':']) := by
    rw [hstrip]
    exact prMatch_colon_line htne htl
  rw [parseLine_pr hc hp]
  rw [if_neg (by decide)]
  have hlk : ((SECTIONS.lookup ([] : List Char)).getD otherH) = otherH := by decide
  rw [hlk]
  have hdesc_strip : stripChars (t ++ [':']) = t ++ [':'] := by
    apply strip_eq_self
    · intro x hx
      obtain ⟨t0, tt, htE⟩ := exists_cons_of_ne_nil htne
      rw [htE, List.cons_append] at hx
      have hx0 : t0 = x := by simpa using hx
      have ht0 : isLowerAlpha t0 = true := by
        rw [htE, List.all_cons, Bool.and_eq_true] at htl
        exact htl.1
      rw [← hx0]
      exact lower_not_space ht0
    · intro x hx
      rw [List.getLast?_append_of_ne_nil _ (by simp)] at hx
      have : ':' = x := by simpa using hx
      rw [← this]
      decide
  rw [hdesc_strip]
  rfl

/-- C7 counterexample to the claim as frozen: `* feat: ` stores the entry
`feat:` under `Other`, not an empty entry under the heading for `feat`. -/
theorem claim_c7_counterexample :
    parse_notes "* feat: ".toList =
      { sections := [("Other".toList, ["feat:".toList])], changelog := none } := by decide

/-- C7 witness: concrete instance of `claim_c7`. -/
theorem claim_c7_witness :
    parse_notes ('*' :: ' ' :: ("feat".toList ++ (':' :: [' ']))) =
      { sections := [(otherH, ["feat".toList ++ [':']])], changelog := none } :=
  claim_c7 "feat".toList [' '] (by decide) (by decide) (by decide) (by decide)

/-! ## Classification is a function of the extracted type (C2) -/

lemma lookup_eq_none_of_no_key {assoc : List (List Char × List Char)} {key : List Char}
    (h : ∀ p ∈ assoc, p.1 ≠ key) : assoc.lookup key = none := by
  induction assoc with
  | nil => rfl
  | cons kv rest ih =>
    obtain ⟨k, v⟩ := kv
    have hk : k ≠ key := h (k, v) (List.mem_cons_self _ _)
    simp only [List.lookup]
    rw [beq_eq_false_iff_ne.mpr (Ne.symm hk)]
    exact ih (fun p hp => h p (List.mem_cons_of_mem _ hp))

/-- C2: for a line matched by the PR grammar, the destination depends only on
the extracted type: skip-set types are dropped, the seven known lowercase keys
map to their canonical headings, anything else (the empty type included) goes
to `Other`; an uppercase prefix such as `Feat:` is not a type and stays in the
description. -/
theorem claim_c2 (l ty desc : List Char)
    (hlne : l ≠ []) (hnb : ∀ c ∈ l, isLineBreak c = false)
    (hp : prMatch (stripChars l) = some (ty, desc)) :
    parse_notes l =
      { sections :=
          if ty ∈ SKIP_TYPES then []
          else [((SECTIONS.lookup ty).getD otherH, [stripChars desc])]
        changelog := none } ∧
    SKIP_TYPES = ["build".toList, "ci".toList, "chore".toList] ∧
    SECTIONS.lookup "feat".toList = some "What's New".toList ∧
    SECTIONS.lookup "fix".toList = some "Fixes".toList ∧
    SECTIONS.lookup "perf".toList = some "Performance".toList ∧
    SECTIONS.lookup "refactor".toList = some "Under the Hood".toList ∧
    SECTIONS.lookup "docs".toList = some "Documentation".toList ∧
    SECTIONS.lookup "style".toList = some "Style".toList ∧
    SECTIONS.lookup "test".toList = some "Testing".toList ∧
    (∀ t2, (∀ p ∈ SECTIONS, p.1 ≠ t2) → (SECTIONS.lookup t2).getD otherH = otherH) ∧
    prMatch (stripChars "* Feat: improve".toList) = some ([], "Feat: improve".toList) := by
  refine ⟨?_, by decide, by decide, by decide, by decide, by decide, by decide, by decide,
    by decide, ?_, by decide⟩
  · obtain ⟨-, c, rest, hshape, hcsp⟩ := prMatch_sound hp
    have hcl : changelogMatch (stripChars l) = none := by
      rw [hshape]
      exact changelogMatch_star_space hcsp
    rw [parse_notes_single hlne hnb, parseLine_pr hcl hp]
    by_cases hskip : ty ∈ SKIP_TYPES
    · rw [if_pos hskip, if_pos hskip]
    · rw [if_neg hskip, if_neg hskip]
      rfl
  · intro t2 h
    rw [lookup_eq_none_of_no_key h]
    rfl

/-- C2 witness: concrete instance of `claim_c2`. -/
theorem claim_c2_witness :
    parse_notes "* chore: bump deps by @bob in https://x".toList =
      { sections := [], changelog := none } ∧
    parse_notes "* zzz: odd by @bob in https://x".toList =
      { sections := [("Other".toList, ["odd".toList])], changelog := none } := by
  have h1 := claim_c2 "* chore: bump deps by @bob in https://x".toList
    "chore".toList "bump deps".toList (by decide) (by decide) (by decide)
  have h2 := claim_c2 "* zzz: odd by @bob in https://x".toList
    "zzz".toList "odd".toList (by decide) (by decide) (by decide)
  exact ⟨h1.1, h2.1⟩

/-! ## Lines without a bullet marker (C8) -/

/-- Does the line start with `*` followed by a white-space character? -/
def bulletSpaceStart : List Char → Bool
  | '*' :: c :: _ => isSpace c
  | _ => false

lemma prMatch_eq_none_of_not_bullet {m : List Char} (hb : bulletSpaceStart m = false) :
    prMatch m = none := by
  cases m with
  | nil => rfl
  | cons c0 cs =>
    rw [prMatch.eq_def]
    split
    · rename_i rest1 heq1
      rw [List.cons.injEq] at heq1
      obtain ⟨rfl, h2⟩ := heq1
      subst h2
      cases cs with
      | nil => rfl
      | cons c1 cs1 =>
        have hs1 : isSpace c1 = false := hb
        rw [greedyPlusO, if_neg (by simp [hs1])]
    · rfl

/-- C8 (amended): a line whose trimmed form does not start with `*` followed
by a white-space character, and which does not match the changelog pattern,
leaves the parser state untouched — no entry, no error. -/
theorem claim_c8 (st : ParseState) (l : List Char)
    (hb : bulletSpaceStart (stripChars l) = false)
    (hcl : changelogMatch (stripChars l) = none) :
    parseLine st l = st :=
  parseLine_skip hcl (prMatch_eq_none_of_not_bullet hb)

/-- C8 counterexample to the claim as frozen: the trimmed line `*<tab>x` does
not start with the two-character literal `* `, is not a changelog line, and
still produces the entry `x` under `Other`. -/
theorem claim_c8_counterexample :
    (stripChars "*\tx".toList).take 2 ≠ "* ".toList ∧
    changelogMatch (stripChars "*\tx".toList) = none ∧
    parse_notes "*\tx".toList =
      { sections := [("Other".toList, [['x']])], changelog := none } := by decide

/-- C8 witness: concrete instances of `claim_c8` (blank line, prose line,
`feat: x` without a bullet). -/
theorem claim_c8_witness :
    parseLine { sections := [], changelog := none } "".toList =
      { sections := [], changelog := none } ∧
    parseLine { sections := [], changelog := none } "some prose line".toList =
      { sections := [], changelog := none } ∧
    parseLine { sections := [], changelog := none } "feat: x".toList =
      { sections := [], changelog := none } :=
  ⟨claim_c8 _ "".toList (by decide) (by decide),
   claim_c8 _ "some prose line".toList (by decide) (by decide),
   claim_c8 _ "feat: x".toList (by decide) (by decide)⟩

/-! ## `main` (C9) -/

/-- C9: exit status 1 with a usage message on standard error exactly when
fewer than two positional arguments follow the program name; otherwise the
program prints the selected rendering and exits 0. -/
theorem claim_c9 (argv : List (List Char)) (content : List Char) :
    ((runMain argv content).exitCode = 1 ∧ (runMain argv content).usageToStderr = true ∧
        (runMain argv content).stdout = none ↔ argv.length < 3) ∧
    ((runMain argv content).exitCode = 0 ↔ ¬ argv.length < 3) ∧
    (¬ argv.length < 3 →
      (runMain argv content).usageToStderr = false ∧
      (runMain argv content).stdout = some
        ((if htmlFlagLit ∈ argv then
            format_html (argv.getD 2 []) (parse_notes content).sections
              (parse_notes content).changelog
          else
            format_markdown (argv.getD 2 []) (parse_notes content).sections
              (parse_notes content).changelog) ++ ['\n'])) := by
  unfold runMain
  by_cases h : argv.length < 3
  · rw [if_pos h]
    refine ⟨⟨fun _ => h, fun _ => ⟨rfl, rfl, rfl⟩⟩, ⟨fun hx => absurd hx (by simp), ?_⟩, ?_⟩
    · intro hn
      exact absurd h hn
    · intro hn
      exact absurd h hn
  · rw [if_neg h]
    exact ⟨⟨fun hx => absurd hx.1 (by simp), fun hx => absurd hx h⟩,
      ⟨fun _ => h, fun _ => rfl⟩, fun _ => ⟨rfl, rfl⟩⟩

/-- C9 witness: concrete instances of `claim_c9`. -/
theorem claim_c9_witness :
    (runMain [['p']] []).exitCode = 1 ∧
    (runMain ["p".toList, "notes.txt".toList, "v1".toList] "* feat: x".toList).exitCode = 0 := by
  have h1 := claim_c9 [['p']] []
  have h2 := claim_c9 ["p".toList, "notes.txt".toList, "v1".toList] "* feat: x".toList
  exact ⟨(h1.1.mpr (by decide)).1, h2.2.1.mpr (by decide)⟩

/-! ## Changelog matching is prefix-anchored (C10) -/

lemma httpCapO_http {α : Type} (t : List Char) (k : List Char → List Char → Option α) :
    httpCapO (http7 ++ t) k = k http7 t := by
  unfold httpCapO
  rw [show http7 ++ t = ['h', 't', 't', 'p'] ++ ([':', '/', '/'] ++ t) from rfl, litO_eval]
  rw [show sArmO k ([':', '/', '/'] ++ t) = none from rfl, none_orElse_eq, litO_eval]
  rfl

lemma httpCapO_https {α : Type} (t : List Char) (k : List Char → List Char → Option α) :
    httpCapO (https8 ++ t) k = k https8 t := by
  unfold httpCapO
  rw [show https8 ++ t = ['h', 't', 't', 'p'] ++ ('s' :: ([':', '/', '/'] ++ t)) from rfl,
    litO_eval]
  rw [show sArmO k ('s' :: ([':', '/', '/'] ++ t)) =
      litO [':', '/', '/'] ([':', '/', '/'] ++ t) (fun s3 => k https8 s3) from rfl, litO_eval]
  rw [show litO [':', '/', '/'] ('s' :: ([':', '/', '/'] ++ t))
      (fun s3 => k ['h', 't', 't', 'p', ':', '/', '/'] s3) = none from rfl]
  cases k https8 t <;> rfl

lemma changelogMatch_eval {w rest : List Char} (hw : UrlOkP w)
    (hrest : ∀ x, rest.head? = some x → isSpace x = true) :
    changelogMatch (clLit ++ (' ' :: (w ++ rest))) = some w := by
  obtain ⟨z, hwe, hzne, hz⟩ := hw
  have hrest1 : ∀ x, rest.head? = some x → isNonSpace x = false := by
    intro x hx
    have h := hrest x hx
    unfold isNonSpace
    rw [h]
    rfl
  have hhead : ∀ x, (w ++ rest).head? = some x → isSpace x = false := by
    intro x hx
    have hxh : x = 'h' := by
      rcases hwe with hwe | hwe <;> rw [hwe, List.append_assoc] at hx <;>
        · simp only [http7, https8, List.cons_append, List.head?_cons,
            Option.some.injEq] at hx
          exact hx.symm
    rw [hxh]
    decide
  unfold changelogMatch
  rw [litO_eval]
  apply greedyManyO_eval2 (show ' ' :: (w ++ rest) = [' '] ++ (w ++ rest) from rfl)
    (by decide) hhead
  rcases hwe with hwe | hwe
  · rw [show w ++ rest = http7 ++ (z ++ rest) from by rw [hwe, List.append_assoc],
      httpCapO_http]
    exact greedyPlusCapO_eval hzne hz hrest1 (by rw [hwe])
  · rw [show w ++ rest = https8 ++ (z ++ rest) from by rw [hwe, List.append_assoc],
      httpCapO_https]
    exact greedyPlusCapO_eval hzne hz hrest1 (by rw [hwe])

/-- Decidable form of the boundary condition: the tail is empty or starts with
white space. -/
def headSpaceOk (rest : List Char) : Bool :=
  match rest.head? with
  | some x => isSpace x
  | none => true

lemma headSpaceOk_spec {rest : List Char} (h : headSpaceOk rest = true) :
    ∀ x, rest.head? = some x → isSpace x = true := by
  cases rest with
  | nil => intro x hx; simp at hx
  | cons c cs =>
    intro x hx
    rw [List.head?_cons, Option.some.injEq] at hx
    rw [← hx]
    exact h

/-- C10: the changelog pattern is only prefix-anchored. A trimmed line that
starts with `**Full Changelog**: ` followed by an http(s) URL `w` matches with
captured URL exactly `w` — the maximal run of non-space characters — and any
text after that run is ignored: the line still sets (overwrites) the stored
changelog URL and produces no entry. -/
theorem claim_c10 (st : ParseState) (w rest : List Char)
    (hw : UrlOkP w) (hrest : headSpaceOk rest = true)
    (htrim : stripChars (clLit ++ (' ' :: (w ++ rest))) = clLit ++ (' ' :: (w ++ rest))) :
    changelogMatch (clLit ++ (' ' :: (w ++ rest))) = some w ∧
    parseLine st (clLit ++ (' ' :: (w ++ rest))) = { st with changelog := some w } := by
  have hm := changelogMatch_eval hw (headSpaceOk_spec hrest)
  exact ⟨hm, parseLine_changelog (by rw [htrim]; exact hm)⟩

/-- C10 witness: concrete instance of `claim_c10` with trailing text after the
URL and a previously stored URL that gets overwritten. -/
theorem claim_c10_witness :
    changelogMatch (clLit ++ (' ' :: ("https://a/b".toList ++ " junk".toList))) =
      some "https://a/b".toList ∧
    parseLine { sections := [], changelog := some ['x'] }
        (clLit ++ (' ' :: ("https://a/b".toList ++ " junk".toList))) =
      { sections := [], changelog := some "https://a/b".toList } :=
  claim_c10 { sections := [], changelog := some ['x'] } "https://a/b".toList " junk".toList
    ⟨"a/b".toList, Or.inr (by decide), by decide, by decide⟩ (by decide) (by decide)

/-! ## Last changelog line wins, changelog lines add no entries (C6) -/

/-- URL of the last line (if any) matching the changelog pattern. -/
def lastChangelog : List (List Char) → Option (List Char)
  | [] => none
  | l :: ls =>
    match lastChangelog ls with
    | some u => some u
    | none => changelogMatch (stripChars l)

lemma parseLine_changelog_eq (st : ParseState) (l : List Char) :
    (parseLine st l).changelog =
      match changelogMatch (stripChars l) with
      | some u => some u
      | none => st.changelog := by
  cases hc : changelogMatch (stripChars l) with
  | some u => rw [parseLine_changelog hc]
  | none =>
    cases hp : prMatch (stripChars l) with
    | none => rw [parseLine_skip hc hp]
    | some v =>
      obtain ⟨ty, desc⟩ := v
      rw [parseLine_pr hc hp]
      by_cases hs : ty ∈ SKIP_TYPES
      · rw [if_pos hs]
      · rw [if_neg hs]

lemma parseLine_sections_of_changelog {st : ParseState} {l u : List Char}
    (hc : changelogMatch (stripChars l) = some u) :
    (parseLine st l).sections = st.sections := by
  rw [parseLine_changelog hc]

lemma parseLine_sections_congr (st st' : ParseState) (l : List Char)
    (h : st.sections = st'.sections) :
    (parseLine st l).sections = (parseLine st' l).sections := by
  cases hc : changelogMatch (stripChars l) with
  | some u => rw [parseLine_changelog hc, parseLine_changelog hc]; exact h
  | none =>
    cases hp : prMatch (stripChars l) with
    | none => rw [parseLine_skip hc hp, parseLine_skip hc hp]; exact h
    | some v =>
      obtain ⟨ty, desc⟩ := v
      rw [parseLine_pr hc hp, parseLine_pr hc hp]
      by_cases hs : ty ∈ SKIP_TYPES
      · rw [if_pos hs, if_pos hs]; exact h
      · rw [if_neg hs, if_neg hs, h]

lemma foldl_changelog_eq : ∀ (lines : List (List Char)) (st : ParseState),
    (lines.foldl parseLine st).changelog =
      match lastChangelog lines with
      | some u => some u
      | none => st.changelog := by
  intro lines
  induction lines with
  | nil => intro st; rfl
  | cons l ls ih =>
    intro st
    rw [List.foldl_cons, ih]
    rw [show lastChangelog (l :: ls) =
        match lastChangelog ls with
        | some u => some u
        | none => changelogMatch (stripChars l) from rfl]
    cases lastChangelog ls with
    | some u => rfl
    | none => exact parseLine_changelog_eq st l

lemma foldl_sections_filter :
    ∀ (lines : List (List Char)) (st st' : ParseState), st.sections = st'.sections →
      (lines.foldl parseLine st).sections =
        ((lines.filter (fun l => (changelogMatch (stripChars l)).isNone)).foldl
          parseLine st').sections := by
  intro lines
  induction lines with
  | nil => intro st st' h; exact h
  | cons l ls ih =>
    intro st st' h
    rw [List.foldl_cons]
    cases hc : changelogMatch (stripChars l) with
    | some u =>
      rw [List.filter_cons, if_neg (by rw [hc]; simp)]
      exact ih _ _ ((parseLine_sections_of_changelog hc).trans h)
    | none =>
      rw [List.filter_cons, if_pos (by rw [hc]; simp), List.foldl_cons]
      exact ih _ _ (parseLine_sections_congr st st' l h)

lemma lastChangelog_none : ∀ {lines : List (List Char)},
    (∀ l ∈ lines, changelogMatch (stripChars l) = none) → lastChangelog lines = none := by
  intro lines
  induction lines with
  | nil => intro _; rfl
  | cons l ls ih =>
    intro h
    rw [show lastChangelog (l :: ls) =
        match lastChangelog ls with
        | some u => some u
        | none => changelogMatch (stripChars l) from rfl]
    rw [ih (fun x hx => h x (List.mem_cons_of_mem _ hx))]
    exact h l (List.mem_cons_self _ _)

/-- C6: the parser's changelog URL is the one captured from the last line
matching the changelog pattern (later matches overwrite earlier ones, with no
error), is `none` when no line matches, and changelog lines never contribute
an entry: the sections are those of the same input with all changelog lines
removed. -/
theorem claim_c6 (raw : List Char) :
    ((parse_notes raw).changelog =
      match lastChangelog (splitlines raw) with
      | some u => some u
      | none => none) ∧
    (parse_notes raw).sections =
      (((splitlines raw).filter
          (fun l => (changelogMatch (stripChars l)).isNone)).foldl parseLine
        { sections := [], changelog := none }).sections ∧
    ((∀ l ∈ splitlines raw, changelogMatch (stripChars l) = none) →
      (parse_notes raw).changelog = none) := by
  refine ⟨foldl_changelog_eq (splitlines raw) _, ?_, ?_⟩
  · exact foldl_sections_filter (splitlines raw) _ _ rfl
  · intro h
    rw [show parse_notes raw = (splitlines raw).foldl parseLine
        { sections := [], changelog := none } from rfl, foldl_changelog_eq,
      lastChangelog_none h]

/-- C6 witness: two changelog lines (the second, with trailing text, wins) and
a changelog line that also looks like a PR bullet yields no entry. -/
theorem claim_c6_witness :
    (parse_notes
        "**Full Changelog**: https://a/1\n* feat: x\n**Full Changelog**: https://a/2 tail".toList).changelog =
      some "https://a/2".toList := by
  have h := (claim_c6
    "**Full Changelog**: https://a/1\n* feat: x\n**Full Changelog**: https://a/2 tail".toList).1
  rw [h]
  decide

/-! ## Renderer refinement against the spec wording (C3, C4)

The `spec...` definitions below follow the specification's words for the two
renderers; the theorems compare them with the definitions translated from the
script. -/

/-- The fixed heading order the spec prescribes. -/
def specCanonicalOrder : List (List Char) :=
  ["What's New".toList, "Fixes".toList, "Performance".toList, "Under the Hood".toList,
   "Documentation".toList, "Style".toList, "Testing".toList, "Other".toList]

/-- Entries stored under a heading (empty when the heading is absent). -/
def specEntries (secs : List (List Char × List (List Char))) (h : List Char) :
    List (List Char) :=
  (secs.lookup h).getD []

/-- Spec wording for one markdown section: a `### <heading>` line, one
`- <entry>` line per entry in stored order, and a blank line; nothing for a
heading with zero entries. -/
def specMdBlock (secs : List (List Char × List (List Char))) (h : List Char) :
    List (List Char) :=
  if specEntries secs h = [] then []
  else ("### ".toList ++ h) :: ((specEntries secs h).map (fun e => "- ".toList ++ e) ++ [[]])

/-- Spec wording for the whole markdown document. -/
def specFormatMarkdown (tag : List Char) (secs : List (List Char × List (List Char)))
    (url : Option (List Char)) : List Char :=
  joinNL ((["## Brewy ".toList ++ tag, []] ++ catMap (specMdBlock secs) specCanonicalOrder) ++
    (match url with
     | some u => ["---".toList, "**Full Changelog**: ".toList ++ u, []]
     | none => []))

/-- Spec wording for one HTML section. -/
def specHtmlBlock (secs : List (List Char × List (List Char))) (h : List Char) :
    List (List Char) :=
  if specEntries secs h = [] then []
  else ("<h2>".toList ++ htmlEscape h ++ "</h2>".toList) :: "<ul>".toList ::
    ((specEntries secs h).map (fun e => "  <li>".toList ++ htmlEscape e ++ "</li>".toList) ++
      ["</ul>".toList])

/-- Spec wording for the whole HTML document: no title, no changelog. -/
def specFormatHtml (secs : List (List Char × List (List Char))) : List Char :=
  joinNL (catMap (specHtmlBlock secs) specCanonicalOrder)

lemma catMap_congr {α β : Type} {f g : α → List β} :
    ∀ {l : List α}, (∀ x ∈ l, f x = g x) → catMap f l = catMap g l := by
  intro l
  induction l with
  | nil => intro _; rfl
  | cons x xs ih =>
    intro h
    show f x ++ catMap f xs = g x ++ catMap g xs
    rw [h x (List.mem_cons_self _ _), ih (fun y hy => h y (List.mem_cons_of_mem _ hy))]

lemma orderedKeys_eq_spec : orderedKeys = specCanonicalOrder := by decide

lemma sectionBlockMd_eq_spec (secs : List (List Char × List (List Char))) (h : List Char) :
    sectionBlockMd secs h = specMdBlock secs h := by
  unfold sectionBlockMd specMdBlock specEntries
  cases hl : secs.lookup h with
  | none => rfl
  | some es =>
    cases es with
    | nil => rfl
    | cons e es1 => rfl

lemma sectionBlockHtml_eq_spec (secs : List (List Char × List (List Char))) (h : List Char) :
    sectionBlockHtml secs h = specHtmlBlock secs h := by
  unfold sectionBlockHtml specHtmlBlock specEntries
  cases hl : secs.lookup h with
  | none => rfl
  | some es =>
    cases es with
    | nil => rfl
    | cons e es1 => rfl

/-- C3: the markdown renderer produces exactly the document the spec
describes — title line and blank line, then the populated section blocks in
canonical order, then the changelog block when a URL is present — and the
concrete example of the claim renders character for character as stated. -/
theorem claim_c3 :
    (∀ tag secs url, (∀ u, url = some u → u ≠ []) →
      format_markdown tag secs url = specFormatMarkdown tag secs url) ∧
    format_markdown "v2.0.0".toList [("What's New".toList, ["add X".toList])]
        (some "https://diff".toList) =
      "## Brewy v2.0.0\n\n### What's New\n- add X\n\n---\n**Full Changelog**: https://diff\n".toList := by
  refine ⟨?_, by decide⟩
  intro tag secs url hu
  unfold format_markdown specFormatMarkdown mdLines
  refine congrArg joinNL ?_
  have h2 : catMap (sectionBlockMd secs) orderedKeys =
      catMap (specMdBlock secs) specCanonicalOrder := by
    rw [orderedKeys_eq_spec]
    exact catMap_congr (fun h _ => sectionBlockMd_eq_spec secs h)
  cases url with
  | none => rw [h2]; rfl
  | some u =>
    have hne := hu u rfl
    rw [h2, show urlBlockMd (some u) = [hrLit, clOutLit ++ u, []] from by
      rw [show urlBlockMd (some u) = if u = [] then [] else [hrLit, clOutLit ++ u, []] from
        rfl, if_neg hne]]
    rfl

/-- C3 witness: concrete instance of the refinement half of `claim_c3`. -/
theorem claim_c3_witness :
    format_markdown "v1".toList [] (some "https://u".toList) =
      specFormatMarkdown "v1".toList [] (some "https://u".toList) :=
  claim_c3.1 "v1".toList [] (some "https://u".toList)
    (fun u hu => by injection hu with h; subst h; decide)

/-- C4: the HTML renderer's output is independent of the tag and of the
changelog URL (no title line, URL never rendered) and equals the spec's
description: per populated heading `<h2>` + escaped heading + `</h2>`,
`<ul>`, two-space-indented `<li>` + escaped entry + `</li>` per entry, and
`</ul>`; `&`, `<`, `>` and quotes are escaped, e.g. `What's New` renders as
`<h2>What&#x27;s New</h2>`. -/
theorem claim_c4 :
    (∀ tag tag2 secs url url2, format_html tag secs url = format_html tag2 secs url2) ∧
    (∀ tag secs url, format_html tag secs url = specFormatHtml secs) ∧
    htmlEscape "What's New".toList = "What&#x27;s New".toList ∧
    htmlEscape "a&b<c>\"d'e".toList = "a&amp;b&lt;c&gt;&quot;d&#x27;e".toList ∧
    format_html "v2.0.0".toList [("What's New".toList, ["add <X> & \"Y\"".toList])]
        (some "https://u".toList) =
      "<h2>What&#x27;s New</h2>\n<ul>\n  <li>add &lt;X&gt; &amp; &quot;Y&quot;</li>\n</ul>".toList := by
  refine ⟨fun _ _ _ _ _ => rfl, ?_, by decide, by decide, by decide⟩
  intro tag secs url
  unfold format_html specFormatHtml htmlLines
  refine congrArg joinNL ?_
  rw [orderedKeys_eq_spec]
  exact catMap_congr (fun h _ => sectionBlockHtml_eq_spec secs h)

/-! ## Heading order and omission of empty headings (C5) -/

/-- Splitting on `'\n'` (the inverse of `"\n".join` on newline-free lines). -/
def splitNlGo : List Char → List Char → List (List Char)
  | acc, [] => [acc.reverse]
  | acc, c :: rest =>
    if c = '\n' then acc.reverse :: splitNlGo [] rest else splitNlGo (c :: acc) rest

/-- The lines of a rendered document. -/
def splitNl (s : List Char) : List (List Char) :=
  splitNlGo [] s

lemma splitNlGo_no_nl : ∀ {l : List Char} (acc : List Char), '\n' ∉ l →
    splitNlGo acc l = [acc.reverse ++ l] := by
  intro l
  induction l with
  | nil =>
    intro acc _
    show [acc.reverse] = [acc.reverse ++ []]
    rw [List.append_nil]
  | cons c cs ih =>
    intro acc h
    have hc : ¬ c = '\n' := fun he => h (he ▸ List.mem_cons_self _ _)
    have hcs : '\n' ∉ cs := fun hm => h (List.mem_cons_of_mem _ hm)
    rw [splitNlGo, if_neg hc, ih _ hcs]
    simp

lemma splitNlGo_break : ∀ {l : List Char} (acc rest : List Char), '\n' ∉ l →
    splitNlGo acc (l ++ '\n' :: rest) = (acc.reverse ++ l) :: splitNlGo [] rest := by
  intro l
  induction l with
  | nil =>
    intro acc rest _
    rw [List.nil_append, splitNlGo, if_pos rfl, List.append_nil]
  | cons c cs ih =>
    intro acc rest h
    have hc : ¬ c = '\n' := fun he => h (he ▸ List.mem_cons_self _ _)
    have hcs : '\n' ∉ cs := fun hm => h (List.mem_cons_of_mem _ hm)
    rw [List.cons_append, splitNlGo, if_neg hc, ih _ _ hcs]
    simp

lemma splitNl_joinNL : ∀ {xs : List (List Char)}, xs ≠ [] →
    (∀ l ∈ xs, '\n' ∉ l) → splitNl (joinNL xs) = xs := by
  intro xs
  induction xs with
  | nil => intro hne _; exact absurd rfl hne
  | cons x xs ih =>
    intro _ h
    cases xs with
    | nil =>
      show splitNlGo [] x = [x]
      rw [splitNlGo_no_nl [] (h x (List.mem_cons_self _ _))]
      simp
    | cons y ys =>
      show splitNlGo [] (x ++ '\n' :: joinNL (y :: ys)) = x :: y :: ys
      rw [splitNlGo_break [] _ (h x (List.mem_cons_self _ _)),
        show (([] : List Char).reverse ++ x) = x from by simp]
      rw [show splitNlGo [] (joinNL (y :: ys)) = splitNl (joinNL (y :: ys)) from rfl,
        ih (by simp) (fun l hl => h l (List.mem_cons_of_mem _ hl))]

/-- A heading is populated when it has at least one stored entry. -/
def specPopulated (secs : List (List Char × List (List Char))) (h : List Char) : Bool :=
  !((secs.lookup h).getD []).isEmpty

lemma mem_catMap {α β : Type} {f : α → List β} :
    ∀ {L : List α} {y : β}, y ∈ catMap f L → ∃ x ∈ L, y ∈ f x := by
  intro L
  induction L with
  | nil => intro y hy; exact absurd hy (List.not_mem_nil y)
  | cons x xs ih =>
    intro y hy
    rcases List.mem_append.mp hy with hy | hy
    · exact ⟨x, List.mem_cons_self _ _, hy⟩
    · obtain ⟨x', hx', hy'⟩ := ih hy
      exact ⟨x', List.mem_cons_of_mem _ hx', hy'⟩

lemma catMap_eq_nil {α β : Type} {f : α → List β} :
    ∀ {L : List α}, catMap f L = [] → ∀ x ∈ L, f x = [] := by
  intro L
  induction L with
  | nil => intro _ x hx; exact absurd hx (List.not_mem_nil x)
  | cons z zs ih =>
    intro h x hx
    rw [show catMap f (z :: zs) = f z ++ catMap f zs from rfl] at h
    rw [List.append_eq_nil] at h
    rcases List.mem_cons.mp hx with rfl | hx
    · exact h.1
    · exact ih h.2 x hx

lemma filter_catMap {α β : Type} (p : β → Bool) (f : α → List β) :
    ∀ (L : List α), (catMap f L).filter p = catMap (fun x => (f x).filter p) L := by
  intro L
  induction L with
  | nil => rfl
  | cons x xs ih =>
    show (f x ++ catMap f xs).filter p = (f x).filter p ++ catMap _ xs
    rw [List.filter_append, ih]

lemma catMap_if_singleton {α β : Type} (p : α → Bool) (g : α → β) :
    ∀ (L : List α), catMap (fun x => if p x then [g x] else []) L = (L.filter p).map g := by
  intro L
  induction L with
  | nil => rfl
  | cons x xs ih =>
    show (if p x then [g x] else []) ++ catMap _ xs = (List.filter p (x :: xs)).map g
    rw [List.filter_cons]
    by_cases hp : p x
    · rw [if_pos hp, if_pos hp, ih]
      rfl
    · rw [if_neg hp, if_neg hp, ih]
      rfl

lemma lookup_mem : ∀ {secs : List (List Char × List (List Char))} {h : List Char}
    {es : List (List Char)}, secs.lookup h = some es → (h, es) ∈ secs := by
  intro secs
  induction secs with
  | nil => intro h es hl; exact absurd hl (by simp [List.lookup])
  | cons kv rest ih =>
    intro h es hl
    obtain ⟨k, v⟩ := kv
    simp only [List.lookup] at hl
    by_cases hk : h = k
    · rw [show (h == k) = true from by simpa using hk, Option.some.injEq] at hl
      rw [hk, hl]
      exact List.mem_cons_self _ _
    · rw [show (h == k) = false from by simpa using hk] at hl
      exact List.mem_cons_of_mem _ (ih hl)

lemma setdefaultAppend_entry_mem :
    ∀ {secs : List (List Char × List (List Char))} {key v : List Char}
      {kv : List Char × List (List Char)}, kv ∈ setdefaultAppend secs key v →
      ∀ e ∈ kv.2, (∃ kv' ∈ secs, e ∈ kv'.2) ∨ e = v := by
  intro secs
  induction secs with
  | nil =>
    intro key v kv hkv e he
    rw [show setdefaultAppend [] key v = [(key, [v])] from rfl] at hkv
    rcases List.mem_cons.mp hkv with rfl | hkv
    · rcases List.mem_cons.mp he with rfl | he
      · exact Or.inr rfl
      · exact absurd he (List.not_mem_nil e)
    · exact absurd hkv (List.not_mem_nil kv)
  | cons kv0 rest ih =>
    intro key v kv hkv e he
    obtain ⟨k', vs⟩ := kv0
    rw [show setdefaultAppend ((k', vs) :: rest) key v =
        if k' = key then (k', vs ++ [v]) :: rest
        else (k', vs) :: setdefaultAppend rest key v from rfl] at hkv
    by_cases hk : k' = key
    · rw [if_pos hk] at hkv
      rcases List.mem_cons.mp hkv with rfl | hkv
      · rcases List.mem_append.mp he with he | he
        · exact Or.inl ⟨(k', vs), List.mem_cons_self _ _, he⟩
        · rcases List.mem_cons.mp he with rfl | he
          · exact Or.inr rfl
          · exact absurd he (List.not_mem_nil e)
      · exact Or.inl ⟨kv, List.mem_cons_of_mem _ hkv, he⟩
    · rw [if_neg hk] at hkv
      rcases List.mem_cons.mp hkv with rfl | hkv
      · exact Or.inl ⟨(k', vs), List.mem_cons_self _ _, he⟩
      · rcases ih hkv e he with ⟨kv', hkv', he'⟩ | he'
        · exact Or.inl ⟨kv', List.mem_cons_of_mem _ hkv', he'⟩
        · exact Or.inr he'

lemma parseLine_entries_no_nl {st : ParseState} (l : List Char)
    (hst : ∀ kv ∈ st.sections, ∀ e ∈ kv.2, '\n' ∉ e) :
    ∀ kv ∈ (parseLine st l).sections, ∀ e ∈ kv.2, '\n' ∉ e := by
  cases hc : changelogMatch (stripChars l) with
  | some u => rw [parseLine_changelog hc]; exact hst
  | none =>
    cases hp : prMatch (stripChars l) with
    | none => rw [parseLine_skip hc hp]; exact hst
    | some v =>
      obtain ⟨ty, desc⟩ := v
      rw [parseLine_pr hc hp]
      by_cases hs : ty ∈ SKIP_TYPES
      · rw [if_pos hs]; exact hst
      · rw [if_neg hs]
        intro kv hkv e he
        rcases setdefaultAppend_entry_mem hkv e he with ⟨kv', hkv', he'⟩ | rfl
        · exact hst kv' hkv' e he'
        · intro hnl
          have hmem := mem_strip_subset hnl
          have hall := (prMatch_sound hp).1
          have := List.all_eq_true.mp hall '\n' hmem
          exact absurd this (by decide)

lemma foldl_entries_no_nl : ∀ (lines : List (List Char)) (st : ParseState),
    (∀ kv ∈ st.sections, ∀ e ∈ kv.2, '\n' ∉ e) →
    ∀ kv ∈ ((lines.foldl parseLine st).sections), ∀ e ∈ kv.2, '\n' ∉ e := by
  intro lines
  induction lines with
  | nil => intro st h; exact h
  | cons l ls ih =>
    intro st h
    rw [List.foldl_cons]
    exact ih _ (parseLine_entries_no_nl l h)

lemma parse_entries_no_nl (raw : List Char) :
    ∀ kv ∈ (parse_notes raw).sections, ∀ e ∈ kv.2, '\n' ∉ e := by
  have h := foldl_entries_no_nl (splitlines raw) { sections := [], changelog := none }
    (fun kv hkv => absurd hkv (List.not_mem_nil kv))
  exact h

lemma foldl_changelog_nonspace : ∀ (lines : List (List Char)) (st : ParseState),
    (∀ u, st.changelog = some u → u.all isNonSpace = true) →
    ∀ u, (lines.foldl parseLine st).changelog = some u → u.all isNonSpace = true := by
  intro lines
  induction lines with
  | nil => intro st h; exact h
  | cons l ls ih =>
    intro st h
    rw [List.foldl_cons]
    refine ih _ ?_
    intro u hu
    rw [parseLine_changelog_eq] at hu
    cases hc : changelogMatch (stripChars l) with
    | some u' =>
      rw [hc] at hu
      rw [show u = u' from by injection hu with h2; exact h2.symm]
      exact changelogMatch_sound hc
    | none =>
      rw [hc] at hu
      exact h u hu
lemma parse_changelog_no_nl {raw u : List Char} (h : (parse_notes raw).changelog = some u) :
    '\n' ∉ u := by
  have hall := foldl_changelog_nonspace (splitlines raw) _ (by intro u0 h0; cases h0) u h
  exact not_mem_of_all hall (by decide)

lemma mem_replChar {x : Char} {c : Char} {r : List Char} :
    ∀ {l : List Char}, x ∈ replChar l c r → x ∈ l ∨ x ∈ r := by
  intro l
  induction l with
  | nil => intro h; exact absurd h (List.not_mem_nil x)
  | cons y ys ih =>
    intro h
    rw [show replChar (y :: ys) c r = (if y = c then r else [y]) ++ replChar ys c r from
      rfl] at h
    rcases List.mem_append.mp h with h | h
    · by_cases hy : y = c
      · rw [if_pos hy] at h
        exact Or.inr h
      · rw [if_neg hy] at h
        rcases List.mem_cons.mp h with rfl | h
        · exact Or.inl (List.mem_cons_self _ _)
        · exact absurd h (List.not_mem_nil x)
    · rcases ih h with h | h
      · exact Or.inl (List.mem_cons_of_mem _ h)
      · exact Or.inr h

lemma htmlEscape_no_nl {s : List Char} (h : '\n' ∉ s) : '\n' ∉ htmlEscape s := by
  intro hm
  unfold htmlEscape at hm
  rcases mem_replChar hm with hm | hm
  on_goal 2 => exact absurd hm (by decide)
  rcases mem_replChar hm with hm | hm
  on_goal 2 => exact absurd hm (by decide)
  rcases mem_replChar hm with hm | hm
  on_goal 2 => exact absurd hm (by decide)
  rcases mem_replChar hm with hm | hm
  on_goal 2 => exact absurd hm (by decide)
  rcases mem_replChar hm with hm | hm
  on_goal 2 => exact absurd hm (by decide)
  exact h hm

lemma filter_eq_nil_of_false {α : Type} {p : α → Bool} :
    ∀ {L : List α}, (∀ x ∈ L, p x = false) → L.filter p = [] := by
  intro L
  induction L with
  | nil => intro _; rfl
  | cons x xs ih =>
    intro h
    rw [List.filter_cons, if_neg (by simp [h x (List.mem_cons_self _ _)]),
      ih (fun y hy => h y (List.mem_cons_of_mem _ hy))]

lemma filter_block_md (secs : List (List Char × List (List Char))) (h : List Char) :
    (sectionBlockMd secs h).filter (fun l => hdr3Lit.isPrefixOf l) =
      if specPopulated secs h then [hdr3Lit ++ h] else [] := by
  unfold sectionBlockMd specPopulated
  cases hl : secs.lookup h with
  | none => rfl
  | some es =>
    cases es with
    | nil => rfl
    | cons e es1 =>
      rw [List.filter_cons, if_pos (List.isPrefixOf_iff_prefix.mpr ⟨h, rfl⟩)]
      rw [filter_eq_nil_of_false (by
        intro x hx
        rcases List.mem_append.mp hx with hx | hx
        · obtain ⟨e0, -, rfl⟩ := List.mem_map.mp hx
          rfl
        · rcases List.mem_cons.mp hx with rfl | hx
          · rfl
          · exact absurd hx (List.not_mem_nil x))]
      rfl

lemma filter_block_html (secs : List (List Char × List (List Char))) (h : List Char) :
    (sectionBlockHtml secs h).filter (fun l => h2Open.isPrefixOf l) =
      if specPopulated secs h then [h2Open ++ htmlEscape h ++ h2Close] else [] := by
  unfold sectionBlockHtml specPopulated
  cases hl : secs.lookup h with
  | none => rfl
  | some es =>
    cases es with
    | nil => rfl
    | cons e es1 =>
      rw [List.filter_cons, if_pos (List.isPrefixOf_iff_prefix.mpr
        ⟨htmlEscape h ++ h2Close, (List.append_assoc _ _ _).symm⟩)]
      rw [List.filter_cons, if_neg (by simp [show h2Open.isPrefixOf ulLit = false from rfl])]
      rw [filter_eq_nil_of_false (by
        intro x hx
        rcases List.mem_append.mp hx with hx | hx
        · obtain ⟨e0, -, rfl⟩ := List.mem_map.mp hx
          rfl
        · rcases List.mem_cons.mp hx with rfl | hx
          · rfl
          · exact absurd hx (List.not_mem_nil x))]
      rfl

lemma filter_mdLines (tag : List Char) (secs : List (List Char × List (List Char)))
    (url : Option (List Char)) :
    (mdLines tag secs url).filter (fun l => hdr3Lit.isPrefixOf l) =
      (orderedKeys.filter (specPopulated secs)).map (fun h => hdr3Lit ++ h) := by
  have hu : (urlBlockMd url).filter (fun l => hdr3Lit.isPrefixOf l) = [] := by
    cases url with
    | none => rfl
    | some u =>
      rw [show urlBlockMd (some u) = if u = [] then [] else [hrLit, clOutLit ++ u, []] from rfl]
      by_cases h0 : u = []
      · rw [if_pos h0]
        rfl
      · rw [if_neg h0]
        rfl
  unfold mdLines
  rw [List.filter_append, List.filter_append, hu,
    show ([titleLit ++ tag, []] : List (List Char)).filter
      (fun l => hdr3Lit.isPrefixOf l) = [] from rfl,
    filter_catMap, catMap_congr (fun h _ => filter_block_md secs h), catMap_if_singleton]
  simp

lemma filter_htmlLines (tag : List Char) (secs : List (List Char × List (List Char)))
    (url : Option (List Char)) :
    (htmlLines tag secs url).filter (fun l => h2Open.isPrefixOf l) =
      (orderedKeys.filter (specPopulated secs)).map
        (fun h => h2Open ++ htmlEscape h ++ h2Close) := by
  unfold htmlLines
  rw [filter_catMap, catMap_congr (fun h _ => filter_block_html secs h), catMap_if_singleton]

lemma mem_block_md {secs : List (List Char × List (List Char))} {h0 l : List Char}
    (hl : l ∈ sectionBlockMd secs h0) (hh : '\n' ∉ h0)
    (hsecs : ∀ kv ∈ secs, ∀ e ∈ kv.2, '\n' ∉ e) : '\n' ∉ l := by
  unfold sectionBlockMd at hl
  cases hl2 : secs.lookup h0 with
  | none =>
    rw [hl2] at hl
    exact absurd hl (List.not_mem_nil l)
  | some es =>
    rw [hl2] at hl
    cases es with
    | nil => exact absurd hl (List.not_mem_nil l)
    | cons e es1 =>
      rcases List.mem_cons.mp hl with rfl | hl
      · intro hm
        rcases List.mem_append.mp hm with hm | hm
        · exact absurd hm (by decide)
        · exact hh hm
      · rcases List.mem_append.mp hl with hl | hl
        · obtain ⟨e0, he0, rfl⟩ := List.mem_map.mp hl
          intro hm
          rcases List.mem_append.mp hm with hm | hm
          · exact absurd hm (by decide)
          · exact hsecs (h0, e :: es1) (lookup_mem hl2) e0 he0 hm
        · rcases List.mem_cons.mp hl with rfl | hl
          · exact List.not_mem_nil _
          · exact absurd hl (List.not_mem_nil l)

lemma mem_block_html {secs : List (List Char × List (List Char))} {h0 l : List Char}
    (hl : l ∈ sectionBlockHtml secs h0) (hh : '\n' ∉ h0)
    (hsecs : ∀ kv ∈ secs, ∀ e ∈ kv.2, '\n' ∉ e) : '\n' ∉ l := by
  unfold sectionBlockHtml at hl
  cases hl2 : secs.lookup h0 with
  | none =>
    rw [hl2] at hl
    exact absurd hl (List.not_mem_nil l)
  | some es =>
    rw [hl2] at hl
    cases es with
    | nil => exact absurd hl (List.not_mem_nil l)
    | cons e es1 =>
      rcases List.mem_cons.mp hl with rfl | hl
      · intro hm
        rcases List.mem_append.mp hm with hm | hm
        · rcases List.mem_append.mp hm with hm | hm
          · exact absurd hm (by decide)
          · exact htmlEscape_no_nl hh hm
        · exact absurd hm (by decide)
      · rcases List.mem_cons.mp hl with rfl | hl
        · exact fun hm => absurd hm (by decide)
        · rcases List.mem_append.mp hl with hl | hl
          · obtain ⟨e0, he0, rfl⟩ := List.mem_map.mp hl
            intro hm
            rcases List.mem_append.mp hm with hm | hm
            · rcases List.mem_append.mp hm with hm | hm
              · exact absurd hm (by decide)
              · exact htmlEscape_no_nl
                  (hsecs (h0, e :: es1) (lookup_mem hl2) e0 he0) hm
            · exact absurd hm (by decide)
          · rcases List.mem_cons.mp hl with rfl | hl
            · exact fun hm => absurd hm (by decide)
            · exact absurd hl (List.not_mem_nil l)

lemma orderedKeys_no_nl : ∀ h0 ∈ orderedKeys, '\n' ∉ h0 := by decide

lemma md_headings (tag : List Char) (secs : List (List Char × List (List Char)))
    (url : Option (List Char)) (htag : '\n' ∉ tag)
    (hsecs : ∀ kv ∈ secs, ∀ e ∈ kv.2, '\n' ∉ e)
    (hurl : ∀ u, url = some u → '\n' ∉ u) :
    (splitNl (format_markdown tag secs url)).filter (fun l => hdr3Lit.isPrefixOf l) =
      (orderedKeys.filter (specPopulated secs)).map (fun h => hdr3Lit ++ h) := by
  have hnl : ∀ l ∈ mdLines tag secs url, '\n' ∉ l := by
    intro l hl
    unfold mdLines at hl
    rcases List.mem_append.mp hl with hl | hl
    · rcases List.mem_append.mp hl with hl | hl
      · rcases List.mem_cons.mp hl with rfl | hl
        · intro hm
          rcases List.mem_append.mp hm with hm | hm
          · exact absurd hm (by decide)
          · exact htag hm
        · rcases List.mem_cons.mp hl with rfl | hl
          · exact List.not_mem_nil _
          · exact absurd hl (List.not_mem_nil l)
      · obtain ⟨h0, hh0, hl⟩ := mem_catMap hl
        exact mem_block_md hl (orderedKeys_no_nl h0 hh0) hsecs
    · cases hc : url with
      | none =>
        rw [hc] at hl
        exact absurd hl (List.not_mem_nil l)
      | some u =>
        rw [hc] at hl
        rw [show urlBlockMd (some u) =
          if u = [] then [] else [hrLit, clOutLit ++ u, []] from rfl] at hl
        by_cases h0 : u = []
        · rw [if_pos h0] at hl
          exact absurd hl (List.not_mem_nil l)
        · rw [if_neg h0] at hl
          rcases List.mem_cons.mp hl with rfl | hl
          · exact fun hm => absurd hm (by decide)
          · rcases List.mem_cons.mp hl with rfl | hl
            · intro hm
              rcases List.mem_append.mp hm with hm | hm
              · exact absurd hm (by decide)
              · exact hurl u hc hm
            · rcases List.mem_cons.mp hl with rfl | hl
              · exact List.not_mem_nil _
              · exact absurd hl (List.not_mem_nil l)
  have hne : mdLines tag secs url ≠ [] := by
    unfold mdLines
    simp
  unfold format_markdown
  rw [splitNl_joinNL hne hnl]
  exact filter_mdLines tag secs url

lemma html_headings (tag : List Char) (secs : List (List Char × List (List Char)))
    (url : Option (List Char))
    (hsecs : ∀ kv ∈ secs, ∀ e ∈ kv.2, '\n' ∉ e) :
    (splitNl (format_html tag secs url)).filter (fun l => h2Open.isPrefixOf l) =
      (orderedKeys.filter (specPopulated secs)).map
        (fun h => h2Open ++ htmlEscape h ++ h2Close) := by
  unfold format_html
  by_cases hn : htmlLines tag secs url = []
  · rw [hn]
    rw [show splitNl (joinNL ([] : List (List Char))) = [[]] from rfl]
    rw [show ([[]] : List (List Char)).filter (fun l => h2Open.isPrefixOf l) = [] from rfl]
    have hnp : ∀ h0 ∈ orderedKeys, specPopulated secs h0 = false := by
      intro h0 hh0
      unfold htmlLines at hn
      have hb := catMap_eq_nil hn h0 hh0
      unfold specPopulated
      unfold sectionBlockHtml at hb
      cases hl2 : secs.lookup h0 with
      | none => rfl
      | some es =>
        rw [hl2] at hb
        cases es with
        | nil => rfl
        | cons e es1 => simp at hb
    rw [show orderedKeys.filter (specPopulated secs) = [] from filter_eq_nil_of_false hnp]
    rfl
  · have hnl : ∀ l ∈ htmlLines tag secs url, '\n' ∉ l := by
      intro l hl
      unfold htmlLines at hl
      obtain ⟨h0, hh0, hl⟩ := mem_catMap hl
      exact mem_block_html hl (orderedKeys_no_nl h0 hh0) hsecs
    rw [splitNl_joinNL hn hnl]
    exact filter_htmlLines tag secs url

/-- C5: in both renderers the heading lines of the output are exactly the
populated headings, in the fixed canonical order What's New, Fixes,
Performance, Under the Hood, Documentation, Style, Testing, Other — whatever
the input text was — and a heading with zero entries contributes no line at
all. -/
theorem claim_c5 (raw tag : List Char) (htag : '\n' ∉ tag) :
    (splitNl (format_markdown tag (parse_notes raw).sections
        (parse_notes raw).changelog)).filter (fun l => hdr3Lit.isPrefixOf l) =
      (specCanonicalOrder.filter (specPopulated (parse_notes raw).sections)).map
        (fun h => hdr3Lit ++ h) ∧
    (splitNl (format_html tag (parse_notes raw).sections
        (parse_notes raw).changelog)).filter (fun l => h2Open.isPrefixOf l) =
      (specCanonicalOrder.filter (specPopulated (parse_notes raw).sections)).map
        (fun h => h2Open ++ htmlEscape h ++ h2Close) := by
  constructor
  · rw [← orderedKeys_eq_spec]
    exact md_headings tag _ _ htag (parse_entries_no_nl raw)
      (fun u hu => parse_changelog_no_nl hu)
  · rw [← orderedKeys_eq_spec]
    exact html_headings tag _ _ (parse_entries_no_nl raw)

/-- C5 witness: concrete instance of `claim_c5` — input populates Other then
What's New, the output orders What's New first and omits the six empty
headings. -/
theorem claim_c5_witness :
    (splitNl (format_markdown "v9".toList
        (parse_notes "* zebra last\n* feat: first".toList).sections
        (parse_notes "* zebra last\n* feat: first".toList).changelog)).filter
        (fun l => hdr3Lit.isPrefixOf l) =
      ["### What's New".toList, "### Other".toList] := by
  have h := (claim_c5 "* zebra last\n* feat: first".toList "v9".toList (by decide)).1
  rw [h]
  decide

end Brewy
